import Mathlib

/-!
The program packetus: a change log of a dependency manifest over a git history.

A shallow embedding of the Go sources `package.go`, `strategies.go`, `run.go` and
`output.go`, followed by theorems about strategy resolution, manifest parsing, the
per-commit diff loop and the commit loop of `Run`.

Modelling conventions

* A Go `map[string]V` is a finite map with unique keys, `AList`; a nil map is `none`.
  Reading a nil map behaves like reading an empty one.
* A Go `error` is a `GoError`: a sentinel value or a wrapped cause (`fmt.Errorf` with `%w`).
* External collaborators (git, the JSON decoder, the file system behind a presenter, the
  order in which `range` visits a map) are parameters of the model.
-/

namespace Packetus

/-! ## Errors -/

/-- A Go `error` value: `errors.New msg`, or `fmt.Errorf(context + ": %w", cause)`. -/
inductive GoError where
  | sentinel (msg : String)
  | wrapped (context : String) (cause : GoError)
  deriving DecidableEq, Repr

/-- The Go `errors.Is` test on the unwrap chain of `e`. -/
def GoError.Is : GoError → GoError → Bool
  | .sentinel m, target => decide (GoError.sentinel m = target)
  | .wrapped c e, target => decide (GoError.wrapped c e = target) || GoError.Is e target

/-! ## package.go -/

structure Package where
  Name : String
  Version : String
  IsDev : Bool
  deriving DecidableEq, Repr

/-- The Go string type `ChangeEvent`; `main` converts raw flag values into it. -/
abbrev ChangeEvent := String

def PackageAdded : ChangeEvent := "added"
def PackageUpdated : ChangeEvent := "updated"
def PackageDeleted : ChangeEvent := "deleted"

/-- A point in time, `time.Time`, as seconds since the epoch. -/
abbrev Time := Int

structure PackageChange where
  Package : Package
  OldVersion : String
  Author : String
  Email : String
  Time : Time
  Commit : String
  Event : ChangeEvent
  deriving DecidableEq, Repr

/-! ## Go maps -/

/-- A non-nil Go `map[string]V`. -/
abbrev StrMap (V : Type) := AList (fun _ : String => V)

/-- A Go `map[string]V` value; `none` is the nil map. -/
abbrev GoMap (V : Type) := Option (StrMap V)

/-- The two-result read `v, ok := m[k]`, with `ok` as `isSome`. -/
def GoMap.get {V : Type} (m : GoMap V) (k : String) : Option V :=
  match m with
  | none => none
  | some s => s.lookup k

/-- The entries visited by `for k, v := range m`, in the order of the representation. -/
def GoMap.range {V : Type} (m : GoMap V) : List (String × V) :=
  match m with
  | none => []
  | some s => s.entries.map (fun e => (e.1, e.2))

/-! ## strategies.go -/

/-- The content behind an `io.Reader`. -/
abbrev Reader := String

structure Strategy where
  Name : String
  matchFiles : List String
  getPackages : Reader → Except GoError (GoMap Package)

/-- The loop `for name, pkg := range packages { if pkg.IsDev { delete(packages, name) } }`. -/
def deleteDev (packages : StrMap Package) : StrMap Package :=
  (GoMap.range (some packages)).foldl
    (fun acc e => if e.2.IsDev then acc.erase e.1 else acc) packages

def Strategy.GetPackages (s : Strategy) (r : Reader) (dev : Bool) :
    Except GoError (GoMap Package) :=
  match s.getPackages r with
  | .error err => .error err
  | .ok packages =>
    if !dev then
      match packages with
      | none => .ok none
      | some m => .ok (some (deleteDev m))
    else .ok packages

def ErrStrategyNotFound : GoError := .sentinel "strategy not found"

def findStrategyByName (strategies : List Strategy) (name : String) : Except GoError Strategy :=
  match strategies.find? (fun s => s.Name == name) with
  | some s => .ok s
  | none => .error ErrStrategyNotFound

/-- The Go `path/filepath.Base` with `/` as separator and no volume names. -/
def filepathBase (path : String) : String :=
  if path = "" then "."
  else
    let stripped := (path.toList.reverse.dropWhile (· == '/'))
    let last := (stripped.takeWhile (· != '/')).reverse
    if last = [] then "/" else String.mk last

def findStrategyByPath (strategies : List Strategy) (path : String) : Except GoError Strategy :=
  let target := filepathBase path
  match strategies.find? (fun s => s.matchFiles.any (fun fileName => fileName == target)) with
  | some s => .ok s
  | none => .error ErrStrategyNotFound

structure composerJSON where
  Require : GoMap String
  RequireDev : GoMap String

structure packageJSON where
  Dependencies : GoMap String
  DevDependencies : GoMap String

/-- The loop `for pkg, ver := range src { packages[pkg] = Package{pkg, ver, isDev} }`. -/
def addPackages (packages : StrMap Package) (src : GoMap String) (isDev : Bool) :
    StrMap Package :=
  (GoMap.range src).foldl
    (fun acc e => acc.insert e.1 { Name := e.1, Version := e.2, IsDev := isDev }) packages

/-- The decoder is `json.NewDecoder(r).Decode`, an external collaborator. -/
def getComposerPackages (decode : Reader → Except GoError composerJSON) (r : Reader) :
    Except GoError (GoMap Package) :=
  match decode r with
  | .error err => .error (.wrapped "json decode" err)
  | .ok c =>
    let packages : StrMap Package := ∅
    let packages := addPackages packages c.Require false
    let packages := addPackages packages c.RequireDev true
    .ok (some packages)

def getNPMPackages (decode : Reader → Except GoError packageJSON) (r : Reader) :
    Except GoError (GoMap Package) :=
  match decode r with
  | .error err => .error (.wrapped "json decode" err)
  | .ok p =>
    let packages : StrMap Package := ∅
    let packages := addPackages packages p.Dependencies false
    let packages := addPackages packages p.DevDependencies true
    .ok (some packages)

/-- The JSON decoders of the two manifest formats. -/
structure Decoders where
  composer : Reader → Except GoError composerJSON
  npm : Reader → Except GoError packageJSON

def newComposerStrategy (dec : Decoders) : Strategy :=
  { Name := "composer", matchFiles := ["composer.json"],
    getPackages := getComposerPackages dec.composer }

def newNPMStrategy (dec : Decoders) : Strategy :=
  { Name := "npm", matchFiles := ["package.json"],
    getPackages := getNPMPackages dec.npm }

def strategies (dec : Decoders) : List Strategy :=
  [newComposerStrategy dec, newNPMStrategy dec]

/-! ## output.go -/

/-- The interface `Presenter` over a sink state `σ`: each method returns the new state
and the Go error (`none` for nil). -/
structure Presenter (σ : Type) where
  Write : σ → PackageChange → σ × Option GoError
  Close : σ → σ × Option GoError

/-- The CSV presenter; the state is the field `changes`. The csvutil encoder and the file
are external: `encode` is the result of `encoder.Encode(p.changes)`, `closeFile` that of
`p.closer.Close()`. -/
def csvPresenter (encode : List PackageChange → Option GoError) (closeFile : Option GoError) :
    Presenter (List PackageChange) where
  Write := fun changes pc => (changes ++ [pc], none)
  Close := fun changes =>
    match encode changes with
    | some err => (changes, some (.wrapped "csv encode" err))
    | none => (changes, closeFile)

/-- The JSON presenter; the state is the field `changes`. -/
def jsonPresenter (encode : List PackageChange → Option GoError) (closeFile : Option GoError) :
    Presenter (List PackageChange) where
  Write := fun changes pc => (changes ++ [pc], none)
  Close := fun changes =>
    match encode changes with
    | some err => (changes, some (.wrapped "json encode" err))
    | none => (changes, closeFile)

/-! ## run.go -/

structure RunOptions where
  RepositoryPath : String
  FilePath : String
  CommitsCount : Nat
  StrategyName : String
  CaptureEvents : List ChangeEvent
  CaptureDevPackages : Bool
  OutputType : String
  OutputPath : String

/-- The author signature of a commit (`object.Signature`). -/
structure Signature where
  Name : String
  Email : String
  When : Time

/-- A file of a commit tree (`object.File`); `Reader` is the result of `file.Reader()`. -/
structure File where
  Reader : Except GoError Reader

/-- A commit object (`object.Commit`); `File path` is the result of `ref.File(path)`. -/
structure Commit where
  Author : Signature
  File : String → Except GoError File

/-- An opened repository; `CommitObject commit` is the result of
`repo.CommitObject(plumbing.NewHash(commit))`. -/
structure Repository where
  CommitObject : String → Except GoError Commit

def getCaptureOpts (changeEvents : List ChangeEvent) : Bool × Bool × Bool :=
  let flags := changeEvents.foldl
    (fun (acc : Bool × Bool × Bool) event =>
      if event = PackageAdded then (true, acc.2.1, acc.2.2)
      else if event = PackageUpdated then (acc.1, true, acc.2.2)
      else if event = PackageDeleted then (acc.1, acc.2.1, true)
      else acc)
    (false, false, false)
  if !flags.1 && !flags.2.1 && !flags.2.2 then (true, true, true) else flags

def mergePkgKeys (a b : GoMap Package) : StrMap Unit :=
  let keys : StrMap Unit := ∅
  let keys := (GoMap.range a).foldl (fun acc e => acc.insert e.1 ()) keys
  let keys := (GoMap.range b).foldl (fun acc e => acc.insert e.1 ()) keys
  keys

/-- The zero value of `Package`, which a failed map read yields. -/
def Package.zero : Package := { Name := "", Version := "", IsDev := false }

/-- The body of the loop over the merged keys, up to the call of `output.Write`: the
event handed to `Write` for `pkgName`, if any. -/
def diffStep (captureAdded captureUpdated captureDeleted : Bool)
    (packages prevPackages : GoMap Package) (ref : Commit) (commit pkgName : String) :
    Option PackageChange :=
  let pkg := (packages.get pkgName).getD Package.zero
  let exist := (packages.get pkgName).isSome
  let pkgPrev := (prevPackages.get pkgName).getD Package.zero
  let existPrev := (prevPackages.get pkgName).isSome
  if captureUpdated && exist && existPrev && pkg.Version != pkgPrev.Version then
    some { Package := pkg, OldVersion := pkgPrev.Version, Author := ref.Author.Name,
           Email := ref.Author.Email, Time := ref.Author.When, Commit := commit,
           Event := PackageUpdated }
  else if captureAdded && exist && !existPrev then
    some { Package := pkg, OldVersion := "", Author := ref.Author.Name,
           Email := ref.Author.Email, Time := ref.Author.When, Commit := commit,
           Event := PackageAdded }
  else if captureDeleted && !exist && existPrev then
    some { Package := pkgPrev, OldVersion := "", Author := ref.Author.Name,
           Email := ref.Author.Email, Time := ref.Author.When, Commit := commit,
           Event := PackageDeleted }
  else none

/-- The sink state together with the list of events handed to `output.Write` so far. -/
structure Sink (σ : Type) where
  output : σ
  written : List PackageChange

/-- The loop `for pkgName := range mergePkgKeys(packages, prevPackages)` over the keys in
visiting order. The second component is the error with which `Run` returns from inside
the loop, if any. -/
def diffLoop {σ : Type} (P : Presenter σ) (captureAdded captureUpdated captureDeleted : Bool)
    (packages prevPackages : GoMap Package) (ref : Commit) (commit : String) :
    List String → Sink σ → Sink σ × Option GoError
  | [], sink => (sink, none)
  | pkgName :: rest, sink =>
    match diffStep captureAdded captureUpdated captureDeleted packages prevPackages ref commit
        pkgName with
    | none => diffLoop P captureAdded captureUpdated captureDeleted packages prevPackages ref
        commit rest sink
    | some pc =>
      match P.Write sink.output pc with
      | (out, some err) =>
        ({ output := out, written := sink.written ++ [pc] },
          some (.wrapped "write result to output" err))
      | (out, none) =>
        diffLoop P captureAdded captureUpdated captureDeleted packages prevPackages ref commit
          rest { output := out, written := sink.written ++ [pc] }

/-- The state carried by the commit loop of `Run`. -/
structure LoopState (σ : Type) where
  prevPackages : GoMap Package
  sink : Sink σ

/-- The first part of the body of the commit loop: the four fallible steps, each of
which logs and skips the commit on failure. -/
def snapshotAt (repo : Repository) (strat : Strategy) (opts : RunOptions) (commit : String) :
    Except GoError (Commit × GoMap Package) :=
  match repo.CommitObject commit with
  | .error err => .error err
  | .ok ref =>
    match ref.File opts.FilePath with
    | .error err => .error err
    | .ok file =>
      match file.Reader with
      | .error err => .error err
      | .ok reader =>
        match strat.GetPackages reader opts.CaptureDevPackages with
        | .error err => .error err
        | .ok packages => .ok (ref, packages)

/-- One iteration of the commit loop. `rangeOrder` is the order in which `range` visits
the merged key set. The second component is the error with which `Run` returns. -/
def commitStep {σ : Type} (P : Presenter σ) (rangeOrder : List String → List String)
    (capture : Bool × Bool × Bool) (repo : Repository) (strat : Strategy) (opts : RunOptions)
    (commit : String) (st : LoopState σ) : LoopState σ × Option GoError :=
  match snapshotAt repo strat opts commit with
  | .error _ => (st, none)
  | .ok (ref, packages) =>
    if st.prevPackages.isNone then
      ({ st with prevPackages := packages }, none)
    else
      match diffLoop P capture.1 capture.2.1 capture.2.2 packages st.prevPackages ref commit
          (rangeOrder (mergePkgKeys packages st.prevPackages).keys) st.sink with
      | (sink, some err) => ({ st with sink := sink }, some err)
      | (sink, none) => ({ prevPackages := packages, sink := sink }, none)

/-- The loop `for commit := range commitCh`. -/
def commitLoop {σ : Type} (P : Presenter σ) (rangeOrder : List String → List String)
    (capture : Bool × Bool × Bool) (repo : Repository) (strat : Strategy) (opts : RunOptions) :
    List String → LoopState σ → LoopState σ × Option GoError
  | [], st => (st, none)
  | commit :: rest, st =>
    match commitStep P rangeOrder capture repo strat opts commit st with
    | (st1, some err) => (st1, some err)
    | (st1, none) => commitLoop P rangeOrder capture repo strat opts rest st1

/-- Lines 31 to 43 of `Run`: the strategy is looked up by name when a name is given, and
by the tracked file path otherwise. -/
def resolveStrategy (registry : List Strategy) (opts : RunOptions) : Except GoError Strategy :=
  if opts.StrategyName ≠ "" then
    match findStrategyByName registry opts.StrategyName with
    | .error err => .error (.wrapped ("find strategy by name " ++ opts.StrategyName) err)
    | .ok strat => .ok strat
  else
    match findStrategyByPath registry opts.FilePath with
    | .error err => .error (.wrapped ("find strategy by path " ++ opts.FilePath) err)
    | .ok strat => .ok strat

/-- What `Run` consumes from outside the program. -/
structure World (σ : Type) where
  /-- The package-level variable `strategies`. -/
  strategies : List Strategy
  /-- The call `git.PlainOpen`. -/
  PlainOpen : String → Except GoError Repository
  /-- The call `getPresenter(opts)`: the presenter and its initial state. -/
  getPresenter : RunOptions → Except GoError (Presenter σ × σ)
  /-- The call `getLastCommits`: the commits sent on the channel before it is closed, and
  the error returned. -/
  getLastCommits : RunOptions → List String × Option GoError
  /-- The order in which `range` visits a key set. -/
  rangeOrder : List String → List String

/-- The outcome of `Run`: the returned error, the events handed to `output.Write`, and,
when a presenter was obtained, the state and the error returned by the deferred
`output.Close()`. -/
structure RunResult (σ : Type) where
  err : Option GoError
  written : List PackageChange
  closed : Option (σ × Option GoError)

def Run {σ : Type} (w : World σ) (opts : RunOptions) : RunResult σ :=
  match resolveStrategy w.strategies opts with
  | .error err => { err := some err, written := [], closed := none }
  | .ok strat =>
    match w.PlainOpen opts.RepositoryPath with
    | .error err =>
      { err := some (.wrapped ("open git repository " ++ opts.RepositoryPath) err),
        written := [], closed := none }
    | .ok repo =>
      let capture := getCaptureOpts opts.CaptureEvents
      match w.getPresenter opts with
      | .error err =>
        { err := some (.wrapped "get presenter" err), written := [], closed := none }
      | .ok (output, out0) =>
        let commits := w.getLastCommits opts
        let loop := commitLoop output w.rangeOrder capture repo strat opts commits.1
          { prevPackages := none, sink := { output := out0, written := [] } }
        let ret : Option GoError :=
          match loop.2 with
          | some err => some err
          | none =>
            match commits.2 with
            | some err => some (.wrapped "get last commits" err)
            | none => none
        { err := ret, written := loop.1.sink.written,
          closed := some (output.Close loop.1.sink.output) }

/-! ## Sample inputs and definitions used in the statements -/

/-- Decoders that reject every input; the registry does not depend on them. -/
def rejectAll : Decoders where
  composer := fun _ => .error (.sentinel "unexpected end of JSON input")
  npm := fun _ => .error (.sentinel "unexpected end of JSON input")

/-- Options with the given strategy name and tracked file, and defaults elsewhere. -/
def optionsFor (strategyName filePath : String) : RunOptions where
  RepositoryPath := "."
  FilePath := filePath
  CommitsCount := 100
  StrategyName := strategyName
  CaptureEvents := []
  CaptureDevPackages := true
  OutputType := "stdout"
  OutputPath := ""

/-- Decoders for a composer document that lists `a` both in `require` (version 1.0) and in
`require-dev` (version 2.0). -/
def overlapDecoders : Decoders where
  composer := fun _ =>
    .ok { Require := some (AList.singleton "a" "1.0"),
          RequireDev := some (AList.singleton "a" "2.0") }
  npm := fun _ => .error (.sentinel "unexpected end of JSON input")

/-- The composer document of scenario E: `a` 1.0 in `require`, `b` 2.0 in `require-dev`. -/
def scenarioE : composerJSON where
  Require := some (AList.singleton "a" "1.0")
  RequireDev := some (AList.singleton "b" "2.0")

/-- Decoders that read the document of scenario E. -/
def scenarioEDecoders : Decoders where
  composer := fun _ => .ok scenarioE
  npm := fun _ => .error (.sentinel "unexpected end of JSON input")

/-- The event built for an updated package. -/
def updatedEvent (pkg pkgPrev : Package) (ref : Commit) (commit : String) : PackageChange :=
  { Package := pkg, OldVersion := pkgPrev.Version, Author := ref.Author.Name,
    Email := ref.Author.Email, Time := ref.Author.When, Commit := commit,
    Event := PackageUpdated }

/-- The event built for an added package. -/
def addedEvent (pkg : Package) (ref : Commit) (commit : String) : PackageChange :=
  { Package := pkg, OldVersion := "", Author := ref.Author.Name,
    Email := ref.Author.Email, Time := ref.Author.When, Commit := commit,
    Event := PackageAdded }

/-- The event built for a deleted package. -/
def deletedEvent (pkgPrev : Package) (ref : Commit) (commit : String) : PackageChange :=
  { Package := pkgPrev, OldVersion := "", Author := ref.Author.Name,
    Email := ref.Author.Email, Time := ref.Author.When, Commit := commit,
    Event := PackageDeleted }

/-- Scenario A of the spec: an empty previous set and the current set with `a` 1.0. -/
def scenarioACur : GoMap Package :=
  some (AList.singleton "a" { Name := "a", Version := "1.0", IsDev := false })

/-- A commit by a fixed author, whose tree is not consulted. -/
def sampleCommit : Commit where
  Author := { Name := "dev", Email := "dev@example.org", When := 1700000000 }
  File := fun _ => .error (.sentinel "file not found")

/-- The set E of C9, in the words of the spec: the three kinds restricted to those that
occur in the request, or all three when none of them occurs. -/
def enabledKinds (K : List ChangeEvent) : List ChangeEvent :=
  if PackageAdded ∉ K ∧ PackageUpdated ∉ K ∧ PackageDeleted ∉ K then
    [PackageAdded, PackageUpdated, PackageDeleted]
  else [PackageAdded, PackageUpdated, PackageDeleted].filter (fun k => decide (k ∈ K))

/-- Whether the four fallible steps of the loop body succeed at a commit. -/
def yieldsSnapshot (repo : Repository) (strat : Strategy) (opts : RunOptions)
    (commit : String) : Bool :=
  match snapshotAt repo strat opts commit with
  | .ok _ => true
  | .error _ => false

/-- The composer document at commit `c1` of the sample history: `a` 1.0 is required. -/
def docC1 : composerJSON where
  Require := some (AList.singleton "a" "1.0")
  RequireDev := none

/-- The composer document at commit `c3` of the sample history: `a` 2.0 is required, and
`b` 2.0 is required for development. -/
def docC3 : composerJSON where
  Require := some (AList.singleton "a" "2.0")
  RequireDev := some (AList.singleton "b" "2.0")

/-- The decoders of the sample history: the content at `c1` and `c3` decodes to the
documents above, any other content (that of `c2`) does not parse. -/
def sampleDecoders : Decoders where
  composer := fun r =>
    if r = "c1" then .ok docC1
    else if r = "c3" then .ok docC3
    else .error (.sentinel "invalid character")
  npm := fun _ => .error (.sentinel "invalid character")

/-- The commit object of the sample history whose tracked file has content `content`. -/
def sampleCommitWith (content : String) : Commit where
  Author := { Name := "dev", Email := "dev@example.org", When := 1700000000 }
  File := fun path =>
    if path = "composer.json" then .ok { Reader := .ok content }
    else .error (.sentinel "file not found")

/-- The repository of the sample history: the commit objects `c1`, `c2`, `c3`, each with
the tracked file `composer.json`; no other commit object exists. -/
def sampleRepository : Repository where
  CommitObject := fun commit =>
    if commit = "c1" ∨ commit = "c2" ∨ commit = "c3" then .ok (sampleCommitWith commit)
    else .error (.sentinel "object not found")

/-- The snapshot of commit `c1` of the sample history. -/
def snapshotC1 : GoMap Package :=
  some (AList.singleton "a" { Name := "a", Version := "1.0", IsDev := false })

/-- The loop state before the first commit, over a JSON presenter that never fails. -/
def initialState : LoopState (List PackageChange) where
  prevPackages := none
  sink := { output := [], written := [] }

/-- An event carries the identifier and the author signature of the commit `c`. -/
def attributedTo (repo : Repository) (c : String) (e : PackageChange) : Prop :=
  e.Commit = c ∧ ∃ ref, repo.CommitObject c = .ok ref ∧ e.Author = ref.Author.Name ∧
    e.Email = ref.Author.Email ∧ e.Time = ref.Author.When

/-- No entry of the map is a dev package. -/
def NoDev (m : GoMap Package) : Prop := ∀ n p, m.get n = some p → p.IsDev = false

/-- The sample history behind a JSON presenter whose encoder and file never fail. -/
def sampleWorld : World (List PackageChange) where
  strategies := strategies sampleDecoders
  PlainOpen := fun _ => .ok sampleRepository
  getPresenter := fun _ => .ok (jsonPresenter (fun _ => none) none, [])
  getLastCommits := fun _ => (["c1", "c2", "c3"], none)
  rangeOrder := id

/-- The options of a run over `composer.json` with dev-capture disabled. -/
def optionsNoDev : RunOptions where
  RepositoryPath := "."
  FilePath := "composer.json"
  CommitsCount := 100
  StrategyName := ""
  CaptureEvents := []
  CaptureDevPackages := false
  OutputType := "json"
  OutputPath := "out.json"

/-- The sample history behind a JSON presenter whose file is on a full device: every
write of the encoder fails. -/
def fullDeviceWorld : World (List PackageChange) where
  strategies := strategies sampleDecoders
  PlainOpen := fun _ => .ok sampleRepository
  getPresenter := fun _ =>
    .ok (jsonPresenter (fun _ => some (.sentinel "no space left on device")) none, [])
  getLastCommits := fun _ => (["c1", "c2", "c3"], none)
  rangeOrder := id

/-- The decoders of a second history of `composer.json`: the content at `x1`, `x2` and
`x4` requires `a` at 1.0, 2.0 and 3.0, and any other content (that of `x3`) does not
parse. -/
def historyDecoders : Decoders where
  composer := fun r =>
    if r = "x1" then .ok { Require := some (AList.singleton "a" "1.0"), RequireDev := none }
    else if r = "x2" then .ok { Require := some (AList.singleton "a" "2.0"), RequireDev := none }
    else if r = "x4" then .ok { Require := some (AList.singleton "a" "3.0"), RequireDev := none }
    else .error (.sentinel "invalid character")
  npm := fun _ => .error (.sentinel "invalid character")

/-- The repository of the second history: the commit objects `x1` to `x4`, each with the
tracked file `composer.json`. -/
def historyRepository : Repository where
  CommitObject := fun commit =>
    if commit = "x1" ∨ commit = "x2" ∨ commit = "x3" ∨ commit = "x4" then
      .ok (sampleCommitWith commit)
    else .error (.sentinel "object not found")

/-- The package set with the single package `a` at the given version. -/
def onlyA (version : String) : GoMap Package :=
  some (AList.singleton "a" { Name := "a", Version := version, IsDev := false })

/-! ## Go maps: lemmas -/

theorem GoMap.foldl_range {V β : Type} (s : StrMap V) (f : β → String × V → β) (b : β) :
    (GoMap.range (some s)).foldl f b = s.entries.foldl (fun acc e => f acc (e.1, e.2)) b := by
  simp [GoMap.range, List.foldl_map]

theorem lookup_foldl_insert {V W : Type} (g : String → V → W) (n : String) :
    ∀ (l : List (Σ _ : String, V)), l.NodupKeys → ∀ acc : StrMap W,
      AList.lookup n (l.foldl (fun acc e => acc.insert e.1 (g e.1 e.2)) acc) =
        (l.dlookup n).elim (AList.lookup n acc) (fun v => some (g n v)) := by
  intro l
  induction l with
  | nil => intro _ acc; simp
  | cons e t ih =>
    intro hnd acc
    obtain ⟨k, v⟩ := e
    rw [List.nodupKeys_cons] at hnd
    rw [List.foldl_cons, ih hnd.2]
    by_cases hk : n = k
    · subst hk
      have hnone : List.dlookup n t = none := List.dlookup_eq_none.mpr hnd.1
      simp [hnone, List.dlookup_cons_eq]
    · have hk2 : k ≠ n := fun h => hk h.symm
      rw [List.dlookup_cons_ne t (a := n) ⟨k, v⟩ hk, AList.lookup_insert_ne hk]

theorem lookup_foldl_erase (n : String) :
    ∀ (l : List (Σ _ : String, Package)) (acc : StrMap Package),
      AList.lookup n (l.foldl (fun acc e => if e.2.IsDev then acc.erase e.1 else acc) acc) =
        if (∃ e ∈ l, e.1 = n ∧ e.2.IsDev = true) then none else AList.lookup n acc := by
  intro l
  induction l with
  | nil => intro acc; simp
  | cons e t ih =>
    intro acc
    rw [List.foldl_cons, ih]
    by_cases ht : ∃ e ∈ t, e.1 = n ∧ e.2.IsDev = true
    · have : ∃ e2 ∈ e :: t, e2.1 = n ∧ e2.2.IsDev = true := by
        obtain ⟨x, hx, h⟩ := ht
        exact ⟨x, List.mem_cons_of_mem _ hx, h⟩
      rw [if_pos ht, if_pos this]
    · rw [if_neg ht]
      by_cases he : e.1 = n ∧ e.2.IsDev = true
      · have : ∃ e2 ∈ e :: t, e2.1 = n ∧ e2.2.IsDev = true := ⟨e, List.mem_cons_self _ _, he⟩
        rw [if_pos this, if_pos he.2, ← he.1, AList.lookup_erase]
      · have : ¬ ∃ e2 ∈ e :: t, e2.1 = n ∧ e2.2.IsDev = true := by
          rintro ⟨x, hx, h⟩
          rcases List.mem_cons.mp hx with rfl | hx
          · exact he h
          · exact ht ⟨x, hx, h⟩
        rw [if_neg this]
        by_cases hd : e.2.IsDev = true
        · have hne : n ≠ e.1 := fun h => he ⟨h.symm, hd⟩
          rw [if_pos hd, AList.lookup_erase_ne hne]
        · rw [if_neg hd]

theorem mem_foldl_insert_unit {V : Type} (n : String) :
    ∀ (l : List (String × V)) (acc : StrMap Unit),
      n ∈ (l.foldl (fun acc e => acc.insert e.1 ()) acc) ↔ n ∈ acc ∨ ∃ e ∈ l, e.1 = n := by
  intro l
  induction l with
  | nil => intro acc; simp
  | cons e t ih =>
    intro acc
    rw [List.foldl_cons, ih, AList.mem_insert]
    constructor
    · rintro ((h | h) | ⟨x, hx, h⟩)
      · exact Or.inr ⟨e, List.mem_cons_self _ _, h.symm⟩
      · exact Or.inl h
      · exact Or.inr ⟨x, List.mem_cons_of_mem _ hx, h⟩
    · rintro (h | ⟨x, hx, h⟩)
      · exact Or.inl (Or.inr h)
      · rcases List.mem_cons.mp hx with rfl | hx
        · exact Or.inl (Or.inl h.symm)
        · exact Or.inr ⟨x, hx, h⟩

theorem GoMap.get_isSome_iff {V : Type} (m : GoMap V) (n : String) :
    (m.get n).isSome = true ↔ ∃ e ∈ m.range, e.1 = n := by
  cases m with
  | none => simp [GoMap.get, GoMap.range]
  | some s =>
    simp only [GoMap.get, GoMap.range]
    rw [AList.lookup_isSome, AList.mem_keys, AList.keys, List.mem_keys]
    constructor
    · rintro ⟨v, hv⟩
      exact ⟨(n, v), List.mem_map.mpr ⟨⟨n, v⟩, hv, rfl⟩, rfl⟩
    · rintro ⟨e, he, rfl⟩
      obtain ⟨⟨k, v⟩, hx, rfl⟩ := List.mem_map.mp he
      exact ⟨v, hx⟩

/-- The entries the dev filter keeps. -/
theorem lookup_deleteDev (m : StrMap Package) (n : String) :
    (deleteDev m).lookup n = (m.lookup n).filter (fun p => !p.IsDev) := by
  rw [deleteDev, GoMap.foldl_range, lookup_foldl_erase]
  cases hl : AList.lookup n m with
  | none => simp
  | some p =>
    have hmem : (⟨n, p⟩ : Σ _ : String, Package) ∈ m.entries := AList.mem_lookup_iff.mp hl
    by_cases hd : p.IsDev = true
    · have : ∃ e ∈ m.entries, e.1 = n ∧ e.2.IsDev = true := ⟨⟨n, p⟩, hmem, rfl, hd⟩
      rw [if_pos this]
      simp [Option.filter, hd]
    · have : ¬ ∃ e ∈ m.entries, e.1 = n ∧ e.2.IsDev = true := by
        rintro ⟨⟨k, q⟩, he, hk, hq⟩
        simp only at hk hq
        subst hk
        have : AList.lookup k m = some q := AList.mem_lookup_iff.mpr he
        rw [hl] at this
        cases this
        exact hd hq
      rw [if_neg this]
      simp [Option.filter, hd]

/-- The content of the map after one of the two filling loops of a parser. -/
theorem lookup_addPackages (packages : StrMap Package) (src : GoMap String) (isDev : Bool)
    (n : String) :
    (addPackages packages src isDev).lookup n =
      (src.get n).elim (packages.lookup n)
        (fun v => some { Name := n, Version := v, IsDev := isDev }) := by
  cases src with
  | none => simp [addPackages, GoMap.range, GoMap.get]
  | some s =>
    rw [addPackages, GoMap.foldl_range]
    have h := lookup_foldl_insert (fun k (v : String) => ({ Name := k, Version := v, IsDev := isDev } : Package))
      n s.entries s.nodupKeys packages
    simp only [GoMap.get]
    rw [show AList.lookup n s = List.dlookup n s.entries from rfl]
    exact h

theorem mem_mergePkgKeys (a b : GoMap Package) (n : String) :
    n ∈ (mergePkgKeys a b).keys ↔ (a.get n).isSome = true ∨ (b.get n).isSome = true := by
  rw [← AList.mem_keys, GoMap.get_isSome_iff, GoMap.get_isSome_iff]
  unfold mergePkgKeys
  simp only [mem_foldl_insert_unit]
  simp [or_comm]

/-! ## Strategy resolution -/

theorem findStrategyByName_error (registry : List Strategy) (name : String) :
    (∃ e, findStrategyByName registry name = .error e) ↔ ∀ s ∈ registry, s.Name ≠ name := by
  unfold findStrategyByName
  cases h : registry.find? (fun s => s.Name == name) with
  | none =>
    simp only [List.find?_eq_none, beq_iff_eq] at h
    simpa using h
  | some s =>
    have hp := List.find?_some h
    have hm := List.mem_of_find?_eq_some h
    simp only [beq_iff_eq] at hp
    simp only [reduceCtorEq, exists_false, false_iff, not_forall]
    exact ⟨s, hm, fun hne => hne hp⟩

theorem findStrategyByPath_error (registry : List Strategy) (path : String) :
    (∃ e, findStrategyByPath registry path = .error e) ↔
      ∀ s ∈ registry, filepathBase path ∉ s.matchFiles := by
  unfold findStrategyByPath
  dsimp only
  split
  · next s h =>
    have hp := List.find?_some h
    have hm := List.mem_of_find?_eq_some h
    simp only [List.any_eq_true, beq_iff_eq] at hp
    obtain ⟨f, hf, rfl⟩ := hp
    simp only [reduceCtorEq, exists_false, false_iff, not_forall]
    exact ⟨s, hm, fun hne => hne hf⟩
  · next h =>
    simp only [List.find?_eq_none, List.any_eq_true, beq_iff_eq, not_exists, not_and] at h
    refine ⟨fun _ s hs hmem => h s hs _ hmem rfl, fun _ => ⟨_, rfl⟩⟩

theorem findStrategyByName_error_eq (registry : List Strategy) (name : String) (e : GoError)
    (h : findStrategyByName registry name = .error e) : e = ErrStrategyNotFound := by
  unfold findStrategyByName at h
  split at h
  · cases h
  · cases h; rfl

theorem findStrategyByPath_error_eq (registry : List Strategy) (path : String) (e : GoError)
    (h : findStrategyByPath registry path = .error e) : e = ErrStrategyNotFound := by
  unfold findStrategyByPath at h
  dsimp only at h
  split at h
  · cases h
  · cases h; rfl

theorem findStrategyByName_ok (registry : List Strategy) (name : String) (s : Strategy) :
    findStrategyByName registry name = .ok s ↔
      ∃ pre post, registry = pre ++ s :: post ∧ s.Name = name ∧ ∀ t ∈ pre, t.Name ≠ name := by
  unfold findStrategyByName
  cases h : registry.find? (fun s => s.Name == name) with
  | none =>
    simp only [List.find?_eq_none, beq_iff_eq] at h
    simp only [reduceCtorEq, false_iff, not_exists, not_and]
    intro pre post hreg hname
    exact absurd hname (h s (by simp [hreg]))
  | some s2 =>
    simp only [Except.ok.injEq]
    constructor
    · rintro rfl
      obtain ⟨hp, pre, post, hreg, hpre⟩ := List.find?_eq_some.mp h
      exact ⟨pre, post, hreg, by simpa using hp, fun t ht => by simpa using hpre t ht⟩
    · rintro ⟨pre, post, hreg, hname, hpre⟩
      have : registry.find? (fun s => s.Name == name) = some s :=
        List.find?_eq_some.mpr ⟨by simpa using hname, pre, post, hreg,
          fun t ht => by simpa using hpre t ht⟩
      rw [h] at this
      exact Option.some.inj this

theorem findStrategyByPath_ok (registry : List Strategy) (path : String) (s : Strategy) :
    findStrategyByPath registry path = .ok s ↔
      ∃ pre post, registry = pre ++ s :: post ∧ filepathBase path ∈ s.matchFiles ∧
        ∀ t ∈ pre, filepathBase path ∉ t.matchFiles := by
  have key : ∀ t : Strategy,
      (t.matchFiles.any (fun fileName => fileName == filepathBase path)) = true ↔
        filepathBase path ∈ t.matchFiles := by
    intro t
    simp only [List.any_eq_true, beq_iff_eq]
    constructor
    · rintro ⟨f, hf, rfl⟩; exact hf
    · intro hf; exact ⟨_, hf, rfl⟩
  unfold findStrategyByPath
  dsimp only
  split
  · next s2 h =>
    simp only [Except.ok.injEq]
    constructor
    · rintro rfl
      obtain ⟨hp, pre, post, hreg, hpre⟩ := List.find?_eq_some.mp h
      refine ⟨pre, post, hreg, (key _).mp hp, fun t ht hmem => ?_⟩
      have := hpre t ht
      rw [(key t).mpr hmem] at this
      simp at this
    · rintro ⟨pre, post, hreg, hmem, hpre⟩
      have : registry.find? (fun s => s.matchFiles.any (fun fileName => fileName == filepathBase path))
          = some s :=
        List.find?_eq_some.mpr ⟨(key s).mpr hmem, pre, post, hreg, fun t ht => by
          have := hpre t ht
          rw [← key t] at this
          rw [Bool.not_eq_true] at this
          rw [this]; rfl⟩
      rw [h] at this
      exact Option.some.inj this
  · next h =>
    rw [List.find?_eq_none] at h
    simp only [reduceCtorEq, false_iff, not_exists, not_and]
    intro pre post hreg hmem
    exact absurd ((key s).mpr hmem) (h s (by simp [hreg]))

/-- C5, as stated, fails: with the explicit name `yarn` and the tracked file
`package.json`, resolution fails with `ErrStrategyNotFound` although the base name of the
tracked file is in the match set of the registered strategy `npm`. -/
theorem resolveStrategy_named_ignores_path :
    ¬ ((∃ e, resolveStrategy (strategies rejectAll) (optionsFor "yarn" "package.json") = .error e ∧
          e.Is ErrStrategyNotFound = true) ↔
        (¬ (∃ s ∈ strategies rejectAll, s.Name = "yarn") ∧
          ¬ (∃ s ∈ strategies rejectAll, filepathBase "package.json" ∈ s.matchFiles))) := by
  intro h
  have hfail : ∃ e, resolveStrategy (strategies rejectAll) (optionsFor "yarn" "package.json") = .error e ∧
      e.Is ErrStrategyNotFound = true := ⟨_, rfl, by decide⟩
  exact (h.mp hfail).2 ⟨newNPMStrategy rejectAll, by simp [strategies], by decide⟩

/-- C5, amended: `Run` resolves by name alone when an explicit name is given and by the base
name of the tracked file alone when it is not. Resolution fails, with an error wrapping
`ErrStrategyNotFound`, exactly when no registered strategy meets that one criterion;
otherwise it returns the first registered strategy (composer, then npm) that meets it. -/
theorem resolveStrategy_spec (dec : Decoders) (opts : RunOptions) :
    let hit : Strategy → Prop := fun s =>
      if opts.StrategyName ≠ "" then s.Name = opts.StrategyName
      else filepathBase opts.FilePath ∈ s.matchFiles
    (strategies dec).map (fun s => s.Name) = ["composer", "npm"] ∧
    ((∃ e, resolveStrategy (strategies dec) opts = .error e) ↔ ∀ s ∈ strategies dec, ¬ hit s) ∧
    (∀ e, resolveStrategy (strategies dec) opts = .error e → e.Is ErrStrategyNotFound = true) ∧
    (∀ s, resolveStrategy (strategies dec) opts = .ok s ↔
      ∃ pre post, strategies dec = pre ++ s :: post ∧ hit s ∧ ∀ t ∈ pre, ¬ hit t) := by
  intro hit
  refine ⟨rfl, ?_, ?_, ?_⟩
  · by_cases hn : opts.StrategyName ≠ ""
    · have := findStrategyByName_error (strategies dec) opts.StrategyName
      simp only [hit, if_pos hn]
      rw [← this]
      unfold resolveStrategy
      rw [if_pos hn]
      cases findStrategyByName (strategies dec) opts.StrategyName <;> simp
    · have := findStrategyByPath_error (strategies dec) opts.FilePath
      simp only [hit, if_neg hn]
      rw [← this]
      unfold resolveStrategy
      rw [if_neg hn]
      cases findStrategyByPath (strategies dec) opts.FilePath <;> simp
  · intro e he
    unfold resolveStrategy at he
    by_cases hn : opts.StrategyName ≠ ""
    · rw [if_pos hn] at he
      cases hf : findStrategyByName (strategies dec) opts.StrategyName with
      | ok s => rw [hf] at he; cases he
      | error e2 =>
        rw [hf] at he
        cases he
        rw [findStrategyByName_error_eq _ _ _ hf]
        simp [GoError.Is, ErrStrategyNotFound]
    · rw [if_neg hn] at he
      cases hf : findStrategyByPath (strategies dec) opts.FilePath with
      | ok s => rw [hf] at he; cases he
      | error e2 =>
        rw [hf] at he
        cases he
        rw [findStrategyByPath_error_eq _ _ _ hf]
        simp [GoError.Is, ErrStrategyNotFound]
  · intro s
    by_cases hn : opts.StrategyName ≠ ""
    · simp only [hit, if_pos hn]
      rw [← findStrategyByName_ok]
      unfold resolveStrategy
      rw [if_pos hn]
      cases findStrategyByName (strategies dec) opts.StrategyName <;> simp
    · simp only [hit, if_neg hn]
      rw [← findStrategyByPath_ok]
      unfold resolveStrategy
      rw [if_neg hn]
      cases findStrategyByPath (strategies dec) opts.FilePath <;> simp

/-! ## The composer parser and the dev filter -/

theorem composer_GetPackages_eq (dec : Decoders) (r : Reader) (c : composerJSON)
    (h : dec.composer r = .ok c) :
    (newComposerStrategy dec).GetPackages r false =
      .ok (some (deleteDev (addPackages (addPackages ∅ c.Require false) c.RequireDev true))) := by
  simp [Strategy.GetPackages, newComposerStrategy, getComposerPackages, h]

/-- C7, as stated, fails: for the composer document with `a` in both `require` and
`require-dev`, the name `a` of `require` is absent from the result of `GetPackages` with
dev-capture disabled. -/
theorem composer_require_entry_dropped :
    ¬ (∀ n v, GoMap.get (some (AList.singleton "a" "1.0")) n = some v →
        ∃ m, (newComposerStrategy overlapDecoders).GetPackages "" false = .ok m ∧
          m.get n = some { Name := n, Version := v, IsDev := false }) := by
  intro h
  obtain ⟨m, hm, hget⟩ := h "a" "1.0" (by decide)
  rw [composer_GetPackages_eq overlapDecoders "" _ rfl] at hm
  cases hm
  revert hget
  decide

/-- C7, amended: with dev-capture disabled the composer strategy returns exactly the
entries of `require` whose name is not also a name of `require-dev`: such a name maps to
`Package{Name: name, Version: its require version, IsDev: false}`, and no other name is
present. -/
theorem composer_GetPackages_nodev (dec : Decoders) (r : Reader) (c : composerJSON)
    (h : dec.composer r = .ok c) :
    ∃ m, (newComposerStrategy dec).GetPackages r false = .ok (some m) ∧
      ∀ n, m.lookup n =
        if (c.RequireDev.get n).isSome then none
        else (c.Require.get n).map (fun v => { Name := n, Version := v, IsDev := false }) := by
  refine ⟨_, composer_GetPackages_eq dec r c h, fun n => ?_⟩
  rw [lookup_deleteDev, lookup_addPackages, lookup_addPackages]
  cases hd : c.RequireDev.get n with
  | some v => simp [Option.filter]
  | none =>
    cases hr : c.Require.get n with
    | some v => simp [Option.filter]
    | none => simp [Option.filter]

theorem composer_GetPackages_nodev_witness :
    scenarioEDecoders.composer "" = .ok scenarioE ∧
    ∃ m, (newComposerStrategy scenarioEDecoders).GetPackages "" false = .ok (some m) ∧
      ∀ n, m.lookup n =
        if (scenarioE.RequireDev.get n).isSome then none
        else (scenarioE.Require.get n).map
          (fun v => { Name := n, Version := v, IsDev := false }) :=
  ⟨rfl, composer_GetPackages_nodev scenarioEDecoders "" scenarioE rfl⟩

/-! ## The diff loop -/

theorem diffStep_both (a u d : Bool) (cur prev : GoMap Package) (ref : Commit)
    (commit n : String) (p q : Package) (hp : cur.get n = some p) (hq : prev.get n = some q) :
    diffStep a u d cur prev ref commit n =
      if u = true ∧ p.Version ≠ q.Version then some (updatedEvent p q ref commit) else none := by
  unfold diffStep
  simp only [hp, hq, Option.getD_some, Option.isSome_some, updatedEvent]
  by_cases hv : p.Version = q.Version <;> cases a <;> cases u <;> cases d <;> simp [hv]

theorem diffStep_curOnly (a u d : Bool) (cur prev : GoMap Package) (ref : Commit)
    (commit n : String) (p : Package) (hp : cur.get n = some p) (hq : prev.get n = none) :
    diffStep a u d cur prev ref commit n =
      if a = true then some (addedEvent p ref commit) else none := by
  unfold diffStep
  simp only [hp, hq, Option.getD_some, Option.isSome_some, Option.isSome_none, addedEvent]
  cases a <;> cases u <;> cases d <;> simp

theorem diffStep_prevOnly (a u d : Bool) (cur prev : GoMap Package) (ref : Commit)
    (commit n : String) (q : Package) (hp : cur.get n = none) (hq : prev.get n = some q) :
    diffStep a u d cur prev ref commit n =
      if d = true then some (deletedEvent q ref commit) else none := by
  unfold diffStep
  simp only [hp, hq, Option.getD_some, Option.isSome_some, Option.isSome_none, deletedEvent]
  cases a <;> cases u <;> cases d <;> simp

theorem diffStep_neither (a u d : Bool) (cur prev : GoMap Package) (ref : Commit)
    (commit n : String) (hp : cur.get n = none) (hq : prev.get n = none) :
    diffStep a u d cur prev ref commit n = none := by
  unfold diffStep
  simp only [hp, hq, Option.isSome_none]
  cases a <;> cases u <;> cases d <;> simp

/-- The events handed to `Write` by the loop are a prefix of the events of the keys, and
all of them when the loop ends without an error. -/
theorem diffLoop_written {σ : Type} (P : Presenter σ) (a u d : Bool)
    (cur prev : GoMap Package) (ref : Commit) (commit : String) :
    ∀ (keys : List String) (sink : Sink σ),
      ∃ evs, (diffLoop P a u d cur prev ref commit keys sink).1.written = sink.written ++ evs ∧
        evs <+: keys.filterMap (diffStep a u d cur prev ref commit) ∧
        ((diffLoop P a u d cur prev ref commit keys sink).2 = none →
          evs = keys.filterMap (diffStep a u d cur prev ref commit)) := by
  intro keys
  induction keys with
  | nil => intro sink; exact ⟨[], by simp [diffLoop]⟩
  | cons k rest ih =>
    intro sink
    cases hs : diffStep a u d cur prev ref commit k with
    | none =>
      obtain ⟨evs, h1, h2, h3⟩ := ih sink
      refine ⟨evs, ?_, ?_, ?_⟩
      · simp only [diffLoop, hs]; exact h1
      · simp only [List.filterMap_cons, hs]; exact h2
      · simp only [diffLoop, hs, List.filterMap_cons]; exact h3
    | some pc =>
      cases hw : P.Write sink.output pc with
      | mk out err =>
        cases err with
        | some e =>
          refine ⟨[pc], ?_, ?_, ?_⟩
          · simp [diffLoop, hs, hw]
          · simp only [List.filterMap_cons, hs]
            exact ⟨_, rfl⟩
          · simp [diffLoop, hs, hw]
        | none =>
          obtain ⟨evs, h1, h2, h3⟩ := ih { output := out, written := sink.written ++ [pc] }
          refine ⟨pc :: evs, ?_, ?_, ?_⟩
          · simp only [diffLoop, hs, hw]
            rw [h1]; simp
          · simp only [List.filterMap_cons, hs]
            obtain ⟨t, ht⟩ := h2
            exact ⟨t, by simp [← ht]⟩
          · simp only [diffLoop, hs, hw, List.filterMap_cons]
            intro h
            rw [h3 h]

theorem forall₂_filter_filterMap {α β : Type} (f : α → Option β) :
    ∀ l : List α, List.Forall₂ (fun x y => f x = some y)
      (l.filter (fun x => (f x).isSome)) (l.filterMap f) := by
  intro l
  induction l with
  | nil => simp
  | cons x t ih =>
    cases h : f x with
    | none => simpa [List.filter_cons, List.filterMap_cons, h] using ih
    | some y =>
      simp only [List.filter_cons, List.filterMap_cons, h, Option.isSome_some, if_true]
      exact List.Forall₂.cons h ih

theorem added_ne_updated : PackageAdded ≠ PackageUpdated := by decide

theorem added_ne_deleted : PackageAdded ≠ PackageDeleted := by decide

theorem updated_ne_deleted : PackageUpdated ≠ PackageDeleted := by decide

/-- What the loop body does at one key when all three kinds are captured. -/
theorem diffStep_all_spec (cur : GoMap Package) (prev : StrMap Package) (ref : Commit)
    (commit n : String) :
    ((diffStep true true true cur (some prev) ref commit n).isSome = true ↔
      ((cur.get n).isSome ≠ (prev.lookup n).isSome ∨
        ∃ p q, cur.get n = some p ∧ prev.lookup n = some q ∧ p.Version ≠ q.Version)) ∧
    ∀ e, diffStep true true true cur (some prev) ref commit n = some e →
      (cur.get n = some e.Package ∨ prev.lookup n = some e.Package) ∧
      (e.Event = PackageAdded ↔ (cur.get n).isSome = true ∧ prev.lookup n = none) ∧
      (e.Event = PackageUpdated ↔
        ∃ p q, cur.get n = some p ∧ prev.lookup n = some q ∧ p.Version ≠ q.Version) ∧
      (e.Event = PackageDeleted ↔ cur.get n = none ∧ (prev.lookup n).isSome = true) := by
  have hprev : GoMap.get (some prev) n = prev.lookup n := rfl
  cases hp : cur.get n with
  | none =>
    cases hq : prev.lookup n with
    | none =>
      rw [diffStep_neither _ _ _ _ _ _ _ _ hp (hprev.trans hq)]
      simp
    | some q =>
      rw [diffStep_prevOnly _ _ _ _ _ _ _ _ q hp (hprev.trans hq)]
      refine ⟨by simp, ?_⟩
      intro e he
      simp only [if_true, Option.some.injEq] at he
      subst he
      simp [deletedEvent, added_ne_deleted.symm, updated_ne_deleted.symm]
  | some p =>
    cases hq : prev.lookup n with
    | none =>
      rw [diffStep_curOnly _ _ _ _ _ _ _ _ p hp (hprev.trans hq)]
      refine ⟨by simp, ?_⟩
      intro e he
      simp only [if_true, Option.some.injEq] at he
      subst he
      simp [addedEvent, added_ne_updated, added_ne_deleted]
    | some q =>
      rw [diffStep_both _ _ _ _ _ _ _ _ p q hp (hprev.trans hq)]
      by_cases hv : p.Version = q.Version
      · simp [hv]
      · refine ⟨by simp [hv], ?_⟩
        intro e he
        rw [if_pos ⟨rfl, hv⟩] at he
        simp only [Option.some.injEq] at he
        subst he
        simp [updatedEvent, hv, added_ne_updated.symm, updated_ne_deleted]

/-- C1: with all three kinds captured and a non-nil previous set, a diff loop that visits
the merged keys in any order and ends without a sink error hands to `Write` a list of
events that matches, one to one, a duplicate-free list of names holding exactly the names
that are in one set only or in both with different versions; the event of a name carries
the package stored under that name, and its kind is Added iff the name is in the current
set only, Updated iff it is in both with differing versions, Deleted iff it is in the
previous set only. -/
theorem diffLoop_one_event_per_change {σ : Type} (P : Presenter σ) (cur : GoMap Package)
    (prev : StrMap Package) (ref : Commit) (commit : String) (keys : List String)
    (sink : Sink σ)
    (hkeys : keys.Perm (mergePkgKeys cur (some prev)).keys)
    (hok : (diffLoop P true true true cur (some prev) ref commit keys sink).2 = none) :
    ∃ names evs,
      (diffLoop P true true true cur (some prev) ref commit keys sink).1.written =
        sink.written ++ evs ∧
      names.Nodup ∧
      (∀ n, n ∈ names ↔
        ((cur.get n).isSome ≠ (prev.lookup n).isSome ∨
          ∃ p q, cur.get n = some p ∧ prev.lookup n = some q ∧ p.Version ≠ q.Version)) ∧
      List.Forall₂ (fun n e =>
        (cur.get n = some e.Package ∨ prev.lookup n = some e.Package) ∧
        (e.Event = PackageAdded ↔ (cur.get n).isSome = true ∧ prev.lookup n = none) ∧
        (e.Event = PackageUpdated ↔
          ∃ p q, cur.get n = some p ∧ prev.lookup n = some q ∧ p.Version ≠ q.Version) ∧
        (e.Event = PackageDeleted ↔ cur.get n = none ∧ (prev.lookup n).isSome = true))
        names evs := by
  obtain ⟨evs, h1, _, h3⟩ :=
    diffLoop_written P true true true cur (some prev) ref commit keys sink
  have hevs := h3 hok
  refine ⟨keys.filter (fun n => (diffStep true true true cur (some prev) ref commit n).isSome),
    evs, h1, ?_, ?_, ?_⟩
  · exact (hkeys.nodup_iff.mpr (AList.keys_nodup _)).filter _
  · intro n
    rw [List.mem_filter, hkeys.mem_iff, mem_mergePkgKeys,
      (diffStep_all_spec cur prev ref commit n).1]
    have hprev : GoMap.get (some prev) n = prev.lookup n := rfl
    rw [hprev]
    constructor
    · exact fun h => h.2
    · intro h
      refine ⟨?_, h⟩
      rcases h with h | ⟨p, q, hp, _, _⟩
      · cases hc : (cur.get n).isSome
        · rw [hc] at h
          right
          cases hq : (prev.lookup n).isSome
          · rw [hq] at h; exact absurd rfl h
          · rfl
        · left; rfl
      · left; simp [hp]
  · rw [hevs]
    exact (forall₂_filter_filterMap _ keys).imp
      (fun n e he => (diffStep_all_spec cur prev ref commit n).2 e he)

theorem diffLoop_one_event_per_change_witness :
    ["a"].Perm (mergePkgKeys scenarioACur (some ∅)).keys ∧
    (diffLoop (jsonPresenter (fun _ => none) none) true true true scenarioACur (some ∅)
      sampleCommit "c2" ["a"] { output := [], written := [] }).2 = none ∧
    ∃ names evs,
      (diffLoop (jsonPresenter (fun _ => none) none) true true true scenarioACur (some ∅)
        sampleCommit "c2" ["a"] { output := [], written := [] }).1.written = [] ++ evs ∧
      names.Nodup ∧
      (∀ n, n ∈ names ↔
        ((scenarioACur.get n).isSome ≠ (AList.lookup n (∅ : StrMap Package)).isSome ∨
          ∃ p q, scenarioACur.get n = some p ∧ AList.lookup n (∅ : StrMap Package) = some q ∧
            p.Version ≠ q.Version)) ∧
      List.Forall₂ (fun n e =>
        (scenarioACur.get n = some e.Package ∨
          AList.lookup n (∅ : StrMap Package) = some e.Package) ∧
        (e.Event = PackageAdded ↔
          (scenarioACur.get n).isSome = true ∧ AList.lookup n (∅ : StrMap Package) = none) ∧
        (e.Event = PackageUpdated ↔
          ∃ p q, scenarioACur.get n = some p ∧ AList.lookup n (∅ : StrMap Package) = some q ∧
            p.Version ≠ q.Version) ∧
        (e.Event = PackageDeleted ↔
          scenarioACur.get n = none ∧ (AList.lookup n (∅ : StrMap Package)).isSome = true))
        names evs :=
  ⟨by decide, by decide,
    diffLoop_one_event_per_change (jsonPresenter (fun _ => none) none) scenarioACur ∅
      sampleCommit "c2" ["a"] { output := [], written := [] } (by decide) (by decide)⟩

/-- The payload of the event built at one key, for any choice of captured kinds. -/
theorem diffStep_payload (a u d : Bool) (cur prev : GoMap Package) (ref : Commit)
    (commit n : String) (e : PackageChange)
    (he : diffStep a u d cur prev ref commit n = some e) :
    (e.Event = PackageUpdated ∧ cur.get n = some e.Package ∧
      ∃ q, prev.get n = some q ∧ e.OldVersion = q.Version) ∨
    (e.Event = PackageAdded ∧ cur.get n = some e.Package ∧ prev.get n = none ∧
      e.OldVersion = "") ∨
    (e.Event = PackageDeleted ∧ prev.get n = some e.Package ∧ cur.get n = none ∧
      e.OldVersion = "") := by
  cases hp : cur.get n with
  | none =>
    cases hq : prev.get n with
    | none => rw [diffStep_neither _ _ _ _ _ _ _ _ hp hq] at he; cases he
    | some q =>
      rw [diffStep_prevOnly _ _ _ _ _ _ _ _ q hp hq] at he
      split at he
      · cases he; right; right; simp [deletedEvent]
      · cases he
  | some p =>
    cases hq : prev.get n with
    | none =>
      rw [diffStep_curOnly _ _ _ _ _ _ _ _ p hp hq] at he
      split at he
      · cases he; right; left; simp [addedEvent]
      · cases he
    | some q =>
      rw [diffStep_both _ _ _ _ _ _ _ _ p q hp hq] at he
      split at he
      · cases he; left; simp [updatedEvent]
      · cases he

/-- C2: every event the diff loop hands to `Write` was built at some visited name `n`: an
Updated event carries the current set's package of `n` and the previous set's version of
`n` as OldVersion; an Added event carries the current set's package of `n`; a Deleted event
carries the previous set's package of `n`; and OldVersion is empty on every event that is
not Updated. -/
theorem diffLoop_event_payload {σ : Type} (P : Presenter σ) (a u d : Bool)
    (cur prev : GoMap Package) (ref : Commit) (commit : String) (keys : List String)
    (sink : Sink σ) :
    ∃ evs, (diffLoop P a u d cur prev ref commit keys sink).1.written = sink.written ++ evs ∧
      ∀ e ∈ evs,
        (∃ n ∈ keys,
          (e.Event = PackageUpdated ∧ cur.get n = some e.Package ∧
            ∃ q, prev.get n = some q ∧ e.OldVersion = q.Version) ∨
          (e.Event = PackageAdded ∧ cur.get n = some e.Package ∧ prev.get n = none) ∨
          (e.Event = PackageDeleted ∧ prev.get n = some e.Package ∧ cur.get n = none)) ∧
        (e.Event ≠ PackageUpdated → e.OldVersion = "") ∧
        (e.Event = PackageAdded ∨ e.Event = PackageDeleted → e.OldVersion = "") := by
  obtain ⟨evs, h1, h2, _⟩ := diffLoop_written P a u d cur prev ref commit keys sink
  refine ⟨evs, h1, fun e he => ?_⟩
  have hmem : e ∈ keys.filterMap (diffStep a u d cur prev ref commit) := h2.subset he
  obtain ⟨n, hn, hstep⟩ := List.mem_filterMap.mp hmem
  rcases diffStep_payload a u d cur prev ref commit n e hstep with
    ⟨hk, hc, q, hq, ho⟩ | ⟨hk, hc, hq, ho⟩ | ⟨hk, hq, hc, ho⟩
  · refine ⟨⟨n, hn, Or.inl ⟨hk, hc, q, hq, ho⟩⟩, fun h => absurd hk h, ?_⟩
    rintro (h | h)
    · rw [hk] at h; exact absurd h added_ne_updated.symm
    · rw [hk] at h; exact absurd h updated_ne_deleted
  · exact ⟨⟨n, hn, Or.inr (Or.inl ⟨hk, hc, hq⟩)⟩, fun _ => ho, fun _ => ho⟩
  · exact ⟨⟨n, hn, Or.inr (Or.inr ⟨hk, hq, hc⟩)⟩, fun _ => ho, fun _ => ho⟩

/-! ## Event-kind filtering -/

theorem captureFlags_foldl (K : List ChangeEvent) :
    ∀ acc : Bool × Bool × Bool,
      K.foldl
        (fun (acc : Bool × Bool × Bool) event =>
          if event = PackageAdded then (true, acc.2.1, acc.2.2)
          else if event = PackageUpdated then (acc.1, true, acc.2.2)
          else if event = PackageDeleted then (acc.1, acc.2.1, true)
          else acc) acc =
      (acc.1 || decide (PackageAdded ∈ K), acc.2.1 || decide (PackageUpdated ∈ K),
        acc.2.2 || decide (PackageDeleted ∈ K)) := by
  induction K with
  | nil => intro acc; simp
  | cons x t ih =>
    intro acc
    rw [List.foldl_cons, ih]
    by_cases hA : x = PackageAdded
    · subst hA
      simp [added_ne_updated, added_ne_deleted, updated_ne_deleted,
        added_ne_updated.symm, added_ne_deleted.symm, updated_ne_deleted.symm]
    · by_cases hU : x = PackageUpdated
      · subst hU
        simp [added_ne_updated, added_ne_deleted, updated_ne_deleted,
        added_ne_updated.symm, added_ne_deleted.symm, updated_ne_deleted.symm]
      · by_cases hD : x = PackageDeleted
        · subst hD
          simp [added_ne_updated, added_ne_deleted, updated_ne_deleted,
        added_ne_updated.symm, added_ne_deleted.symm, updated_ne_deleted.symm]
        · have h1 : ¬ PackageAdded = x := fun h => hA h.symm
          have h2 : ¬ PackageUpdated = x := fun h => hU h.symm
          have h3 : ¬ PackageDeleted = x := fun h => hD h.symm
          simp [hA, hU, hD, h1, h2, h3]

theorem getCaptureOpts_eq (K : List ChangeEvent) :
    getCaptureOpts K =
      (decide (PackageAdded ∈ enabledKinds K), decide (PackageUpdated ∈ enabledKinds K),
        decide (PackageDeleted ∈ enabledKinds K)) := by
  unfold getCaptureOpts enabledKinds
  simp only [captureFlags_foldl, Bool.false_or]
  by_cases hA : PackageAdded ∈ K <;> by_cases hU : PackageUpdated ∈ K <;>
    by_cases hD : PackageDeleted ∈ K <;>
    simp [hA, hU, hD, List.filter_cons, added_ne_updated, added_ne_deleted, updated_ne_deleted,
      added_ne_updated.symm, added_ne_deleted.symm, updated_ne_deleted.symm]

/-- Capturing fewer kinds only drops, at each key, the event whose kind is not captured. -/
theorem diffStep_filter (a u d : Bool) (keep : PackageChange → Bool)
    (hA : ∀ e, e.Event = PackageAdded → keep e = a)
    (hU : ∀ e, e.Event = PackageUpdated → keep e = u)
    (hD : ∀ e, e.Event = PackageDeleted → keep e = d)
    (cur prev : GoMap Package) (ref : Commit) (commit n : String) :
    diffStep a u d cur prev ref commit n =
      (diffStep true true true cur prev ref commit n).filter keep := by
  cases hp : cur.get n with
  | none =>
    cases hq : prev.get n with
    | none => simp [diffStep_neither _ _ _ _ _ _ _ _ hp hq, Option.filter]
    | some q =>
      rw [diffStep_prevOnly _ _ _ _ _ _ _ _ q hp hq, diffStep_prevOnly _ _ _ _ _ _ _ _ q hp hq]
      have := hD (deletedEvent q ref commit) rfl
      cases d <;> simp [Option.filter, this]
  | some p =>
    cases hq : prev.get n with
    | none =>
      rw [diffStep_curOnly _ _ _ _ _ _ _ _ p hp hq, diffStep_curOnly _ _ _ _ _ _ _ _ p hp hq]
      have := hA (addedEvent p ref commit) rfl
      cases a <;> simp [Option.filter, this]
    | some q =>
      rw [diffStep_both _ _ _ _ _ _ _ _ p q hp hq, diffStep_both _ _ _ _ _ _ _ _ p q hp hq]
      have := hU (updatedEvent p q ref commit) rfl
      by_cases hv : p.Version = q.Version
      · simp [hv, Option.filter]
      · cases u <;> simp [Option.filter, this, hv]

/-- C9: for every request K, the events written by the diff loop under the flags computed
by `getCaptureOpts K` are exactly the events of the loop with all three kinds captured
whose kind is in E (both loops visiting the keys in the same order and ending without a
sink error); every written event has a kind in E; and a request for Updated alone makes E
the single kind Updated. -/
theorem diffLoop_kind_filter {σ τ : Type} (P : Presenter σ) (Q : Presenter τ)
    (K : List ChangeEvent) (cur prev : GoMap Package) (ref : Commit) (commit : String)
    (keys : List String) (sink : Sink σ) (sinkAll : Sink τ)
    (hok : (diffLoop P (getCaptureOpts K).1 (getCaptureOpts K).2.1 (getCaptureOpts K).2.2
      cur prev ref commit keys sink).2 = none)
    (hokAll : (diffLoop Q true true true cur prev ref commit keys sinkAll).2 = none) :
    ∃ evs evsAll,
      (diffLoop P (getCaptureOpts K).1 (getCaptureOpts K).2.1 (getCaptureOpts K).2.2
        cur prev ref commit keys sink).1.written = sink.written ++ evs ∧
      (diffLoop Q true true true cur prev ref commit keys sinkAll).1.written =
        sinkAll.written ++ evsAll ∧
      evs = evsAll.filter (fun e => decide (e.Event ∈ enabledKinds K)) ∧
      (∀ e ∈ evs, e.Event ∈ enabledKinds K) ∧
      enabledKinds [PackageUpdated] = [PackageUpdated] := by
  obtain ⟨evs, h1, _, h3⟩ := diffLoop_written P (getCaptureOpts K).1 (getCaptureOpts K).2.1
    (getCaptureOpts K).2.2 cur prev ref commit keys sink
  obtain ⟨evsAll, g1, _, g3⟩ := diffLoop_written Q true true true cur prev ref commit keys sinkAll
  have hfilter : evs = evsAll.filter (fun e => decide (e.Event ∈ enabledKinds K)) := by
    rw [h3 hok, g3 hokAll, List.filter_filterMap]
    congr 1
    funext n
    apply diffStep_filter
    · intro e he; rw [getCaptureOpts_eq, he]
    · intro e he; rw [getCaptureOpts_eq, he]
    · intro e he; rw [getCaptureOpts_eq, he]
  refine ⟨evs, evsAll, h1, g1, hfilter, ?_, by decide⟩
  intro e he
  rw [hfilter] at he
  simpa using (List.mem_filter.mp he).2

theorem diffLoop_kind_filter_witness :
    (diffLoop (jsonPresenter (fun _ => none) none) (getCaptureOpts [PackageUpdated]).1
      (getCaptureOpts [PackageUpdated]).2.1 (getCaptureOpts [PackageUpdated]).2.2
      scenarioACur (some ∅) sampleCommit "c2" ["a"] { output := [], written := [] }).2 = none ∧
    (diffLoop (jsonPresenter (fun _ => none) none) true true true
      scenarioACur (some ∅) sampleCommit "c2" ["a"] { output := [], written := [] }).2 = none ∧
    ∃ evs evsAll,
      (diffLoop (jsonPresenter (fun _ => none) none) (getCaptureOpts [PackageUpdated]).1
        (getCaptureOpts [PackageUpdated]).2.1 (getCaptureOpts [PackageUpdated]).2.2
        scenarioACur (some ∅) sampleCommit "c2" ["a"]
        { output := [], written := [] }).1.written = [] ++ evs ∧
      (diffLoop (jsonPresenter (fun _ => none) none) true true true
        scenarioACur (some ∅) sampleCommit "c2" ["a"]
        { output := [], written := [] }).1.written = [] ++ evsAll ∧
      evs = evsAll.filter (fun e => decide (e.Event ∈ enabledKinds [PackageUpdated])) ∧
      (∀ e ∈ evs, e.Event ∈ enabledKinds [PackageUpdated]) ∧
      enabledKinds [PackageUpdated] = [PackageUpdated] :=
  ⟨by decide, by decide,
    diffLoop_kind_filter (jsonPresenter (fun _ => none) none)
      (jsonPresenter (fun _ => none) none) [PackageUpdated] scenarioACur (some ∅) sampleCommit
      "c2" ["a"] { output := [], written := [] } { output := [], written := [] }
      (by decide) (by decide)⟩

/-! ## The commit loop -/

theorem commitStep_of_error {σ : Type} (P : Presenter σ) (rangeOrder : List String → List String)
    (capture : Bool × Bool × Bool) (repo : Repository) (strat : Strategy) (opts : RunOptions)
    (commit : String) (st : LoopState σ)
    (h : yieldsSnapshot repo strat opts commit = false) :
    commitStep P rangeOrder capture repo strat opts commit st = (st, none) := by
  unfold yieldsSnapshot at h
  unfold commitStep
  cases hs : snapshotAt repo strat opts commit with
  | error e => rfl
  | ok x => rw [hs] at h; cases h

theorem commitLoop_filter {σ : Type} (P : Presenter σ) (rangeOrder : List String → List String)
    (capture : Bool × Bool × Bool) (repo : Repository) (strat : Strategy) (opts : RunOptions) :
    ∀ (commits : List String) (st : LoopState σ),
      commitLoop P rangeOrder capture repo strat opts commits st =
        commitLoop P rangeOrder capture repo strat opts
          (commits.filter (yieldsSnapshot repo strat opts)) st := by
  intro commits
  induction commits with
  | nil => intro st; rfl
  | cons c rest ih =>
    intro st
    cases hy : yieldsSnapshot repo strat opts c with
    | false =>
      rw [List.filter_cons_of_neg (by simp [hy]), ← ih]
      simp only [commitLoop, commitStep_of_error P rangeOrder capture repo strat opts c st hy]
    | true =>
      rw [List.filter_cons_of_pos hy]
      simp only [commitLoop]
      cases hstep : commitStep P rangeOrder capture repo strat opts c st with
      | mk st1 err =>
        cases err with
        | some e => rfl
        | none => exact ih st1

theorem commitLoop_append {σ : Type} (P : Presenter σ) (rangeOrder : List String → List String)
    (capture : Bool × Bool × Bool) (repo : Repository) (strat : Strategy) (opts : RunOptions)
    (post : List String) :
    ∀ (pre : List String) (st : LoopState σ),
      commitLoop P rangeOrder capture repo strat opts (pre ++ post) st =
        if (commitLoop P rangeOrder capture repo strat opts pre st).2.isSome then
          commitLoop P rangeOrder capture repo strat opts pre st
        else commitLoop P rangeOrder capture repo strat opts post
          (commitLoop P rangeOrder capture repo strat opts pre st).1 := by
  intro pre
  induction pre with
  | nil => intro st; simp [commitLoop]
  | cons c rest ih =>
    intro st
    simp only [List.cons_append, commitLoop]
    cases hstep : commitStep P rangeOrder capture repo strat opts c st with
    | mk st1 err =>
      cases err with
      | some e => simp
      | none => exact ih st1

theorem commitLoop_singleton {σ : Type} (P : Presenter σ)
    (rangeOrder : List String → List String) (capture : Bool × Bool × Bool)
    (repo : Repository) (strat : Strategy) (opts : RunOptions) (c : String)
    (st : LoopState σ) :
    commitLoop P rangeOrder capture repo strat opts [c] st =
      commitStep P rangeOrder capture repo strat opts c st := by
  simp only [commitLoop]
  cases hstep : commitStep P rangeOrder capture repo strat opts c st with
  | mk st1 err => cases err <;> rfl

/-- One iteration of the commit loop at a commit that yields a snapshot. -/
theorem commitStep_of_snapshot {σ : Type} (P : Presenter σ)
    (rangeOrder : List String → List String) (capture : Bool × Bool × Bool)
    (repo : Repository) (strat : Strategy) (opts : RunOptions) (commit : String)
    (st : LoopState σ) (ref : Commit) (cur : GoMap Package)
    (hsnap : snapshotAt repo strat opts commit = .ok (ref, cur)) :
    commitStep P rangeOrder capture repo strat opts commit st =
      if st.prevPackages.isNone then ({ prevPackages := cur, sink := st.sink }, none)
      else
        let r := diffLoop P capture.1 capture.2.1 capture.2.2 cur st.prevPackages ref commit
          (rangeOrder (mergePkgKeys cur st.prevPackages).keys) st.sink
        (if r.2.isSome then { prevPackages := st.prevPackages, sink := r.1 }
          else { prevPackages := cur, sink := r.1 }, r.2) := by
  unfold commitStep
  rw [hsnap]
  by_cases hnil : st.prevPackages.isNone = true
  · simp [hnil]
  · simp only [hnil, Bool.false_eq_true, if_false]
    cases hd : diffLoop P capture.1 capture.2.1 capture.2.2 cur st.prevPackages ref commit
        (rangeOrder (mergePkgKeys cur st.prevPackages).keys) st.sink with
    | mk sink err => cases err <;> simp

theorem commitStep_advances {σ : Type} (P : Presenter σ)
    (rangeOrder : List String → List String) (capture : Bool × Bool × Bool)
    (repo : Repository) (strat : Strategy) (opts : RunOptions) (commit : String)
    (st : LoopState σ) (ref : Commit) (cur : GoMap Package)
    (hsnap : snapshotAt repo strat opts commit = .ok (ref, cur))
    (hok : (commitStep P rangeOrder capture repo strat opts commit st).2 = none) :
    (commitStep P rangeOrder capture repo strat opts commit st).1.prevPackages = cur := by
  rw [commitStep_of_snapshot P rangeOrder capture repo strat opts commit st ref cur hsnap]
    at hok ⊢
  by_cases hnil : st.prevPackages.isNone = true
  · simp [hnil]
  · simp only [hnil, Bool.false_eq_true, if_false] at hok ⊢
    simp only [hok, Option.isSome_none, Bool.false_eq_true, if_false]

theorem commitLoop_all_failed {σ : Type} (P : Presenter σ)
    (rangeOrder : List String → List String) (capture : Bool × Bool × Bool)
    (repo : Repository) (strat : Strategy) (opts : RunOptions) :
    ∀ (fails : List String) (st : LoopState σ),
      (∀ c ∈ fails, yieldsSnapshot repo strat opts c = false) →
      commitLoop P rangeOrder capture repo strat opts fails st = (st, none) := by
  intro fails
  induction fails with
  | nil => intro st _; rfl
  | cons c rest ih =>
    intro st h
    simp only [commitLoop,
      commitStep_of_error P rangeOrder capture repo strat opts c st
        (h c (List.mem_cons_self _ _))]
    exact ih st (fun x hx => h x (List.mem_cons_of_mem _ hx))

/-- After a commit that yields a snapshot and any number of failing commits, the previous
snapshot is that commit's snapshot and the sink is as that commit left it. -/
theorem commitLoop_after_failures {σ : Type} (P : Presenter σ)
    (rangeOrder : List String → List String) (capture : Bool × Bool × Bool)
    (repo : Repository) (strat : Strategy) (opts : RunOptions) (st : LoopState σ)
    (pre : List String) (good : String) (fails : List String) (ref0 : Commit)
    (prev : GoMap Package)
    (hgood : snapshotAt repo strat opts good = .ok (ref0, prev))
    (hfails : ∀ c ∈ fails, yieldsSnapshot repo strat opts c = false)
    (hok : (commitLoop P rangeOrder capture repo strat opts (pre ++ [good]) st).2 = none) :
    commitLoop P rangeOrder capture repo strat opts (pre ++ good :: fails) st =
      ({ prevPackages := prev,
         sink := (commitLoop P rangeOrder capture repo strat opts (pre ++ [good]) st).1.sink },
        none) := by
  have hprev : (commitLoop P rangeOrder capture repo strat opts (pre ++ [good]) st).1.prevPackages
      = prev := by
    rw [commitLoop_append] at hok ⊢
    by_cases hpre : (commitLoop P rangeOrder capture repo strat opts pre st).2.isSome = true
    · rw [if_pos hpre] at hok
      rw [hok] at hpre
      cases hpre
    · rw [if_neg hpre] at hok ⊢
      rw [commitLoop_singleton] at hok ⊢
      exact commitStep_advances P rangeOrder capture repo strat opts good _ ref0 prev hgood hok
  have hsplit : pre ++ good :: fails = (pre ++ [good]) ++ fails := by simp
  rw [hsplit, commitLoop_append, hok]
  simp only [Option.isSome_none, Bool.false_eq_true, if_false]
  rw [commitLoop_all_failed P rangeOrder capture repo strat opts fails _ hfails, ← hprev]

/-- C3: a commit at which the commit object, the file, the reader or the parse fails
leaves the loop state (previous snapshot, sink, written events) unchanged and returns no
error; the commit loop over any commit sequence ends in the same state, with the same
written events and the same error, as over the sequence without its failing commits;
after a commit that yields a snapshot, followed by any number of failing commits, the
previous snapshot is that commit's snapshot and the sink is as that commit left it; and
the next commit that yields a snapshot is diffed against that snapshot: the loop ends as
the diff loop of the next commit's package set against it ends, advancing the previous
snapshot to the next commit's set unless the sink fails. -/
theorem commitLoop_skips_failed_commits {σ : Type} (P : Presenter σ)
    (rangeOrder : List String → List String) (capture : Bool × Bool × Bool)
    (repo : Repository) (strat : Strategy) (opts : RunOptions) (commits : List String)
    (st : LoopState σ) :
    (∀ commit ∈ commits, ∀ s : LoopState σ, yieldsSnapshot repo strat opts commit = false →
      commitStep P rangeOrder capture repo strat opts commit s = (s, none)) ∧
    commitLoop P rangeOrder capture repo strat opts commits st =
      commitLoop P rangeOrder capture repo strat opts
        (commits.filter (yieldsSnapshot repo strat opts)) st ∧
    (∀ (pre : List String) (good : String) (fails : List String) (ref0 : Commit)
        (prev : GoMap Package),
      snapshotAt repo strat opts good = .ok (ref0, prev) →
      (∀ c ∈ fails, yieldsSnapshot repo strat opts c = false) →
      (commitLoop P rangeOrder capture repo strat opts (pre ++ [good]) st).2 = none →
      commitLoop P rangeOrder capture repo strat opts (pre ++ good :: fails) st =
        ({ prevPackages := prev,
           sink := (commitLoop P rangeOrder capture repo strat opts (pre ++ [good]) st).1.sink },
          none)) ∧
    (∀ (pre : List String) (good : String) (fails : List String) (next : String)
        (ref0 : Commit) (prev : GoMap Package) (ref : Commit) (cur : GoMap Package),
      snapshotAt repo strat opts good = .ok (ref0, prev) →
      (∀ c ∈ fails, yieldsSnapshot repo strat opts c = false) →
      snapshotAt repo strat opts next = .ok (ref, cur) →
      (commitLoop P rangeOrder capture repo strat opts (pre ++ [good]) st).2 = none →
      commitLoop P rangeOrder capture repo strat opts ((pre ++ good :: fails) ++ [next]) st =
        if prev.isNone then
          ({ prevPackages := cur,
             sink := (commitLoop P rangeOrder capture repo strat opts (pre ++ [good]) st).1.sink },
            none)
        else
          let r := diffLoop P capture.1 capture.2.1 capture.2.2 cur prev ref next
            (rangeOrder (mergePkgKeys cur prev).keys)
            (commitLoop P rangeOrder capture repo strat opts (pre ++ [good]) st).1.sink
          (if r.2.isSome then { prevPackages := prev, sink := r.1 }
            else { prevPackages := cur, sink := r.1 }, r.2)) := by
  refine ⟨fun commit _ s h => commitStep_of_error P rangeOrder capture repo strat opts commit s h,
    commitLoop_filter P rangeOrder capture repo strat opts commits st,
    fun pre good fails ref0 prev hgood hfails hok =>
      commitLoop_after_failures P rangeOrder capture repo strat opts st pre good fails ref0 prev
        hgood hfails hok, ?_⟩
  intro pre good fails next ref0 prev ref cur hgood hfails hnext hok
  rw [commitLoop_append,
    commitLoop_after_failures P rangeOrder capture repo strat opts st pre good fails ref0 prev
      hgood hfails hok]
  simp only [Option.isSome_none, Bool.false_eq_true, if_false]
  rw [commitLoop_singleton,
    commitStep_of_snapshot P rangeOrder capture repo strat opts next _ ref cur hnext]

/-- C4: at a commit that yields the package set `cur` while the previous snapshot is nil,
one iteration of the commit loop, for any captured kinds, writes no event, leaves the sink
unchanged, returns no error and sets the previous snapshot to `cur`. -/
theorem commitStep_first_snapshot {σ : Type} (P : Presenter σ)
    (rangeOrder : List String → List String) (capture : Bool × Bool × Bool)
    (repo : Repository) (strat : Strategy) (opts : RunOptions) (commit : String)
    (st : LoopState σ) (ref : Commit) (cur : GoMap Package)
    (hsnap : snapshotAt repo strat opts commit = .ok (ref, cur))
    (hnil : st.prevPackages = none) :
    commitStep P rangeOrder capture repo strat opts commit st =
      ({ prevPackages := cur, sink := st.sink }, none) := by
  unfold commitStep
  rw [hsnap]
  simp [hnil]

theorem commitLoop_skips_failed_commits_witness :
    yieldsSnapshot historyRepository (newComposerStrategy historyDecoders)
      (optionsFor "" "composer.json") "x3" = false ∧
    snapshotAt historyRepository (newComposerStrategy historyDecoders)
      (optionsFor "" "composer.json") "x2" = .ok (sampleCommitWith "x2", onlyA "2.0") ∧
    snapshotAt historyRepository (newComposerStrategy historyDecoders)
      (optionsFor "" "composer.json") "x4" = .ok (sampleCommitWith "x4", onlyA "3.0") ∧
    (commitLoop (jsonPresenter (fun _ => none) none) id (true, true, true) historyRepository
      (newComposerStrategy historyDecoders) (optionsFor "" "composer.json") (["x1"] ++ ["x2"])
      initialState).2 = none ∧
    commitLoop (jsonPresenter (fun _ => none) none) id (true, true, true) historyRepository
      (newComposerStrategy historyDecoders) (optionsFor "" "composer.json")
      ["x1", "x2", "x3", "x4"] initialState =
    commitLoop (jsonPresenter (fun _ => none) none) id (true, true, true) historyRepository
      (newComposerStrategy historyDecoders) (optionsFor "" "composer.json")
      ["x1", "x2", "x4"] initialState ∧
    (commitLoop (jsonPresenter (fun _ => none) none) id (true, true, true) historyRepository
      (newComposerStrategy historyDecoders) (optionsFor "" "composer.json")
      (["x1"] ++ "x2" :: ["x3"]) initialState).1.prevPackages = onlyA "2.0" ∧
    (commitLoop (jsonPresenter (fun _ => none) none) id (true, true, true) historyRepository
      (newComposerStrategy historyDecoders) (optionsFor "" "composer.json")
      ((["x1"] ++ "x2" :: ["x3"]) ++ ["x4"]) initialState).1.sink.written =
      (diffLoop (jsonPresenter (fun _ => none) none) true true true (onlyA "3.0")
        (onlyA "2.0") (sampleCommitWith "x4") "x4" ["a"]
        (commitLoop (jsonPresenter (fun _ => none) none) id (true, true, true)
          historyRepository (newComposerStrategy historyDecoders)
          (optionsFor "" "composer.json") (["x1"] ++ ["x2"]) initialState).1.sink).1.written ∧
    (commitLoop (jsonPresenter (fun _ => none) none) id (true, true, true) historyRepository
      (newComposerStrategy historyDecoders) (optionsFor "" "composer.json")
      ["x1", "x2", "x3", "x4"] initialState).1.sink.written =
      [updatedEvent ⟨"a", "2.0", false⟩ ⟨"a", "1.0", false⟩ (sampleCommitWith "x2") "x2",
       updatedEvent ⟨"a", "3.0", false⟩ ⟨"a", "2.0", false⟩ (sampleCommitWith "x4") "x4"] :=
  ⟨by decide, rfl, rfl, by decide,
    (commitLoop_skips_failed_commits (jsonPresenter (fun _ => none) none) id (true, true, true)
      historyRepository (newComposerStrategy historyDecoders) (optionsFor "" "composer.json")
      ["x1", "x2", "x3", "x4"] initialState).2.1,
    congrArg (fun r => r.1.prevPackages)
      ((commitLoop_skips_failed_commits (jsonPresenter (fun _ => none) none) id
        (true, true, true) historyRepository (newComposerStrategy historyDecoders)
        (optionsFor "" "composer.json") ["x1", "x2", "x3", "x4"] initialState).2.2.1
        ["x1"] "x2" ["x3"] (sampleCommitWith "x2") (onlyA "2.0") rfl (by decide) (by decide)),
    congrArg (fun r => r.1.sink.written)
      ((commitLoop_skips_failed_commits (jsonPresenter (fun _ => none) none) id
        (true, true, true) historyRepository (newComposerStrategy historyDecoders)
        (optionsFor "" "composer.json") ["x1", "x2", "x3", "x4"] initialState).2.2.2
        ["x1"] "x2" ["x3"] "x4" (sampleCommitWith "x2") (onlyA "2.0") (sampleCommitWith "x4")
        (onlyA "3.0") rfl (by decide) rfl (by decide)),
    by decide⟩

theorem commitStep_first_snapshot_witness :
    snapshotAt sampleRepository (newComposerStrategy sampleDecoders)
      (optionsFor "" "composer.json") "c1" = .ok (sampleCommitWith "c1", snapshotC1) ∧
    initialState.prevPackages = none ∧
    commitStep (jsonPresenter (fun _ => none) none) id (false, true, false) sampleRepository
      (newComposerStrategy sampleDecoders) (optionsFor "" "composer.json") "c1" initialState =
      ({ prevPackages := snapshotC1, sink := initialState.sink }, none) :=
  ⟨rfl, rfl,
    commitStep_first_snapshot (jsonPresenter (fun _ => none) none) id (false, true, false)
      sampleRepository (newComposerStrategy sampleDecoders) (optionsFor "" "composer.json") "c1"
      initialState (sampleCommitWith "c1") snapshotC1 rfl rfl⟩

/-! ## Batches of events and their metadata -/

theorem diffStep_some_cases (a u d : Bool) (cur prev : GoMap Package) (ref : Commit)
    (commit n : String) (e : PackageChange)
    (he : diffStep a u d cur prev ref commit n = some e) :
    (∃ p q, cur.get n = some p ∧ prev.get n = some q ∧ e = updatedEvent p q ref commit) ∨
    (∃ p, cur.get n = some p ∧ e = addedEvent p ref commit) ∨
    (∃ q, prev.get n = some q ∧ e = deletedEvent q ref commit) := by
  cases hp : cur.get n with
  | none =>
    cases hq : prev.get n with
    | none => rw [diffStep_neither _ _ _ _ _ _ _ _ hp hq] at he; cases he
    | some q =>
      rw [diffStep_prevOnly _ _ _ _ _ _ _ _ q hp hq] at he
      split at he
      · cases he; exact Or.inr (Or.inr ⟨q, rfl, rfl⟩)
      · cases he
  | some p =>
    cases hq : prev.get n with
    | none =>
      rw [diffStep_curOnly _ _ _ _ _ _ _ _ p hp hq] at he
      split at he
      · cases he; exact Or.inr (Or.inl ⟨p, rfl, rfl⟩)
      · cases he
    | some q =>
      rw [diffStep_both _ _ _ _ _ _ _ _ p q hp hq] at he
      split at he
      · cases he; exact Or.inl ⟨p, q, rfl, rfl, rfl⟩
      · cases he

theorem snapshotAt_commitObject (repo : Repository) (strat : Strategy) (opts : RunOptions)
    (commit : String) (ref : Commit) (cur : GoMap Package)
    (h : snapshotAt repo strat opts commit = .ok (ref, cur)) :
    repo.CommitObject commit = .ok ref ∧
      ∃ reader, strat.GetPackages reader opts.CaptureDevPackages = .ok cur := by
  unfold snapshotAt at h
  cases hco : repo.CommitObject commit with
  | error e => rw [hco] at h; cases h
  | ok ref2 =>
    rw [hco] at h
    cases hf : ref2.File opts.FilePath with
    | error e => simp only [hf] at h; cases h
    | ok file =>
      simp only [hf] at h
      cases hr : file.Reader with
      | error e => simp only [hr] at h; cases h
      | ok reader =>
        simp only [hr] at h
        cases hg : strat.GetPackages reader opts.CaptureDevPackages with
        | error e => simp only [hg] at h; cases h
        | ok packages =>
          simp only [hg] at h
          cases h
          exact ⟨rfl, reader, hg⟩

/-- The events one iteration of the commit loop adds to the written list. -/
theorem commitStep_written {σ : Type} (P : Presenter σ) (rangeOrder : List String → List String)
    (capture : Bool × Bool × Bool) (repo : Repository) (strat : Strategy) (opts : RunOptions)
    (commit : String) (st : LoopState σ) :
    ∃ batch,
      (commitStep P rangeOrder capture repo strat opts commit st).1.sink.written =
        st.sink.written ++ batch ∧
      (st.prevPackages = none → batch = []) ∧
      ∀ e ∈ batch, ∃ ref cur n,
        snapshotAt repo strat opts commit = .ok (ref, cur) ∧
        diffStep capture.1 capture.2.1 capture.2.2 cur st.prevPackages ref commit n = some e := by
  unfold commitStep
  cases hs : snapshotAt repo strat opts commit with
  | error err => exact ⟨[], by simp⟩
  | ok x =>
    obtain ⟨ref, cur⟩ := x
    cases hprev : st.prevPackages with
    | none => exact ⟨[], by simp⟩
    | some prev =>
      obtain ⟨evs, h1, h2, _⟩ := diffLoop_written P capture.1 capture.2.1 capture.2.2 cur
        (some prev) ref commit (rangeOrder (mergePkgKeys cur (some prev)).keys) st.sink
      refine ⟨evs, ?_, by simp, ?_⟩
      · simp only [Option.isNone_some, Bool.false_eq_true, if_false]
        cases hd : diffLoop P capture.1 capture.2.1 capture.2.2 cur (some prev) ref commit
            (rangeOrder (mergePkgKeys cur (some prev)).keys) st.sink with
        | mk sink err =>
          rw [hd] at h1
          cases err <;> exact h1
      · intro e he
        obtain ⟨n, _, hn⟩ := List.mem_filterMap.mp (h2.subset he)
        exact ⟨ref, cur, n, rfl, hn⟩

theorem forall₂_replicate_nil {α β : Type} (R : α → List β → Prop)
    (hR : ∀ a, R a []) : ∀ l : List α, List.Forall₂ R l (List.replicate l.length []) := by
  intro l
  induction l with
  | nil => exact List.Forall₂.nil
  | cons a t ih => exact List.Forall₂.cons (hR a) ih

theorem flatten_replicate_nil {β : Type} (k : Nat) :
    (List.replicate k ([] : List β)).flatten = [] := by
  induction k with
  | zero => rfl
  | succ k ih => simp [List.replicate_succ, ih]

/-- The written events of the commit loop, split into one batch per commit. -/
theorem commitLoop_batches {σ : Type} (P : Presenter σ) (rangeOrder : List String → List String)
    (capture : Bool × Bool × Bool) (repo : Repository) (strat : Strategy) (opts : RunOptions) :
    ∀ (commits : List String) (st : LoopState σ),
      ∃ batches : List (List PackageChange),
        List.Forall₂ (fun c b => ∀ e ∈ b, attributedTo repo c e) commits batches ∧
        (commitLoop P rangeOrder capture repo strat opts commits st).1.sink.written =
          st.sink.written ++ batches.flatten ∧
        (st.prevPackages = none → ∀ b, batches.head? = some b → b = []) := by
  intro commits
  induction commits with
  | nil => intro st; exact ⟨[], List.Forall₂.nil, by simp [commitLoop], by simp⟩
  | cons c rest ih =>
    intro st
    obtain ⟨batch, hw, hfirst, hmeta⟩ :=
      commitStep_written P rangeOrder capture repo strat opts c st
    have hattr : ∀ e ∈ batch, attributedTo repo c e := by
      intro e he
      obtain ⟨ref, cur, n, hsnap, hstep⟩ := hmeta e he
      have hco := (snapshotAt_commitObject repo strat opts c ref cur hsnap).1
      rcases diffStep_some_cases _ _ _ _ _ _ _ _ _ hstep with
        ⟨p, q, _, _, rfl⟩ | ⟨p, _, rfl⟩ | ⟨q, _, rfl⟩
      · exact ⟨rfl, ref, hco, rfl, rfl, rfl⟩
      · exact ⟨rfl, ref, hco, rfl, rfl, rfl⟩
      · exact ⟨rfl, ref, hco, rfl, rfl, rfl⟩
    cases hstep : commitStep P rangeOrder capture repo strat opts c st with
    | mk st1 err =>
      rw [hstep] at hw
      cases err with
      | some e =>
        refine ⟨batch :: List.replicate rest.length [], ?_, ?_, ?_⟩
        · exact List.Forall₂.cons hattr
            (forall₂_replicate_nil _ (fun _ e he => absurd he (List.not_mem_nil e)) rest)
        · simp only [commitLoop, hstep, List.flatten_cons, flatten_replicate_nil,
            List.append_nil]
          exact hw
        · intro hnil b hb
          simp only [List.head?_cons, Option.some.injEq] at hb
          rw [← hb]; exact hfirst hnil
      | none =>
        obtain ⟨batches, hall, hw2, _⟩ := ih st1
        refine ⟨batch :: batches, List.Forall₂.cons hattr hall, ?_, ?_⟩
        · simp only [commitLoop, hstep, List.flatten_cons]
          rw [hw2, hw, List.append_assoc]
        · intro hnil b hb
          simp only [List.head?_cons, Option.some.injEq] at hb
          rw [← hb]; exact hfirst hnil

/-- The written events of `Run` are those of its commit loop, when the loop is reached. -/
theorem Run_written_cases {σ : Type} (w : World σ) (opts : RunOptions) :
    (Run w opts).written = [] ∨
    ∃ strat repo output out0,
      resolveStrategy w.strategies opts = .ok strat ∧
      w.PlainOpen opts.RepositoryPath = .ok repo ∧
      w.getPresenter opts = .ok (output, out0) ∧
      (Run w opts).written =
        (commitLoop output w.rangeOrder (getCaptureOpts opts.CaptureEvents) repo strat opts
          (w.getLastCommits opts).1
          { prevPackages := none, sink := { output := out0, written := [] } }).1.sink.written := by
  cases hres : resolveStrategy w.strategies opts with
  | error err => left; simp [Run, hres]
  | ok strat =>
    cases hopen : w.PlainOpen opts.RepositoryPath with
    | error err => left; simp [Run, hres, hopen]
    | ok repo =>
      cases hpres : w.getPresenter opts with
      | error err => left; simp [Run, hres, hopen, hpres]
      | ok po =>
        obtain ⟨output, out0⟩ := po
        right
        exact ⟨strat, repo, output, out0, rfl, rfl, rfl, by simp [Run, hres, hopen, hpres]⟩

/-- C10: the events `Run` hands to the sink are the concatenation, in enumeration order, of
one batch per enumerated commit; every event of a commit's batch carries that commit's
identifier and the name, email and timestamp of its author; and the batch of the commit
enumerated first is empty. -/
theorem Run_written_in_commit_batches {σ : Type} (w : World σ) (opts : RunOptions) :
    ∃ batches : List (List PackageChange),
      List.Forall₂
        (fun c b => ∀ e ∈ b, e.Commit = c ∧
          ∃ repo ref, w.PlainOpen opts.RepositoryPath = .ok repo ∧
            repo.CommitObject c = .ok ref ∧ e.Author = ref.Author.Name ∧
            e.Email = ref.Author.Email ∧ e.Time = ref.Author.When)
        (w.getLastCommits opts).1 batches ∧
      (Run w opts).written = batches.flatten ∧
      (∀ b, batches.head? = some b → b = []) := by
  rcases Run_written_cases w opts with hnil | ⟨strat, repo, output, out0, _, hopen, _, hrun⟩
  · refine ⟨List.replicate (w.getLastCommits opts).1.length [],
      forall₂_replicate_nil _ (fun _ e he => absurd he (List.not_mem_nil e)) _,
      by rw [hnil, flatten_replicate_nil], ?_⟩
    intro b hb
    cases hl : (w.getLastCommits opts).1.length with
    | zero => rw [hl] at hb; simp at hb
    | succ k =>
      rw [hl, List.replicate_succ] at hb
      simp only [List.head?_cons, Option.some.injEq] at hb
      exact hb.symm
  · obtain ⟨batches, hall, hw, hfirst⟩ :=
      commitLoop_batches output w.rangeOrder (getCaptureOpts opts.CaptureEvents) repo strat
        opts (w.getLastCommits opts).1
        { prevPackages := none, sink := { output := out0, written := [] } }
    refine ⟨batches, ?_, ?_, hfirst rfl⟩
    · exact hall.imp (fun c b hb e he =>
        ⟨(hb e he).1, repo, (hb e he).2.choose, hopen, (hb e he).2.choose_spec⟩)
    · rw [hrun, hw]; simp

/-! ## Dev filtering -/

theorem GetPackages_dev (s : Strategy) (r : Reader) :
    s.GetPackages r true = s.getPackages r := by
  unfold Strategy.GetPackages
  cases s.getPackages r <;> simp

theorem GetPackages_nodev (s : Strategy) (r : Reader) (m : GoMap Package)
    (h : s.getPackages r = .ok m) :
    ∃ m', s.GetPackages r false = .ok m' ∧ m'.isSome = m.isSome ∧
      ∀ n, m'.get n = (m.get n).filter (fun p => !p.IsDev) := by
  unfold Strategy.GetPackages
  rw [h]
  cases m with
  | none => exact ⟨none, by simp, rfl, fun n => by simp [GoMap.get]⟩
  | some pk =>
    exact ⟨some (deleteDev pk), by simp, rfl, fun n => by simp [GoMap.get, lookup_deleteDev]⟩

theorem GetPackages_nodev_error (s : Strategy) (r : Reader) (dev : Bool) (err : GoError)
    (h : s.getPackages r = .error err) : s.GetPackages r dev = .error err := by
  unfold Strategy.GetPackages
  rw [h]

theorem NoDev_of_GetPackages (s : Strategy) (r : Reader) (cur : GoMap Package)
    (h : s.GetPackages r false = .ok cur) : NoDev cur := by
  cases hg : s.getPackages r with
  | error err => rw [GetPackages_nodev_error s r false err hg] at h; cases h
  | ok m =>
    obtain ⟨m', hm', _, hget⟩ := GetPackages_nodev s r m hg
    rw [hm'] at h
    cases h
    intro n p hp
    rw [hget] at hp
    cases hm : m.get n with
    | none => rw [hm] at hp; simp [Option.filter] at hp
    | some q =>
      rw [hm] at hp
      simp only [Option.filter] at hp
      split at hp
      · next hq =>
        cases hp
        simpa using hq
      · cases hp

theorem commitStep_prevPackages {σ : Type} (P : Presenter σ)
    (rangeOrder : List String → List String) (capture : Bool × Bool × Bool)
    (repo : Repository) (strat : Strategy) (opts : RunOptions) (commit : String)
    (st : LoopState σ) :
    (commitStep P rangeOrder capture repo strat opts commit st).1.prevPackages =
        st.prevPackages ∨
    ∃ ref cur, snapshotAt repo strat opts commit = .ok (ref, cur) ∧
      (commitStep P rangeOrder capture repo strat opts commit st).1.prevPackages = cur := by
  unfold commitStep
  cases hs : snapshotAt repo strat opts commit with
  | error err => left; rfl
  | ok x =>
    obtain ⟨ref, cur⟩ := x
    cases hprev : st.prevPackages with
    | none => right; exact ⟨ref, cur, rfl, by simp⟩
    | some prev =>
      simp only [Option.isNone_some, Bool.false_eq_true, if_false]
      cases hd : diffLoop P capture.1 capture.2.1 capture.2.2 cur (some prev) ref commit
          (rangeOrder (mergePkgKeys cur (some prev)).keys) st.sink with
      | mk sink err =>
        cases err with
        | some e => left; rfl
        | none => right; exact ⟨ref, cur, rfl, rfl⟩

/-- With dev-capture disabled, the commit loop keeps dev packages out of the previous
snapshot and out of the written events. -/
theorem commitLoop_nodev {σ : Type} (P : Presenter σ) (rangeOrder : List String → List String)
    (capture : Bool × Bool × Bool) (repo : Repository) (strat : Strategy) (opts : RunOptions)
    (hdev : opts.CaptureDevPackages = false) :
    ∀ (commits : List String) (st : LoopState σ), NoDev st.prevPackages →
      (∀ e ∈ st.sink.written, e.Package.IsDev = false) →
      ∀ e ∈ (commitLoop P rangeOrder capture repo strat opts commits st).1.sink.written,
        e.Package.IsDev = false := by
  intro commits
  induction commits with
  | nil => intro st _ hw; simpa [commitLoop] using hw
  | cons c rest ih =>
    intro st hprev hw
    have hsnap : ∀ ref cur, snapshotAt repo strat opts c = .ok (ref, cur) → NoDev cur := by
      intro ref cur h
      obtain ⟨_, reader, hg⟩ := snapshotAt_commitObject repo strat opts c ref cur h
      rw [hdev] at hg
      exact NoDev_of_GetPackages strat reader cur hg
    obtain ⟨batch, hbw, _, hbatch⟩ := commitStep_written P rangeOrder capture repo strat opts c st
    have hw1 : ∀ e ∈ (commitStep P rangeOrder capture repo strat opts c st).1.sink.written,
        e.Package.IsDev = false := by
      intro e he
      rw [hbw] at he
      rcases List.mem_append.mp he with he | he
      · exact hw e he
      · obtain ⟨ref, cur, n, hs, hstep⟩ := hbatch e he
        rcases diffStep_some_cases _ _ _ _ _ _ _ _ _ hstep with
          ⟨p, q, hp, _, rfl⟩ | ⟨p, hp, rfl⟩ | ⟨q, hq, rfl⟩
        · exact hsnap ref cur hs n p hp
        · exact hsnap ref cur hs n p hp
        · exact hprev n q hq
    have hprev1 : NoDev (commitStep P rangeOrder capture repo strat opts c st).1.prevPackages := by
      rcases commitStep_prevPackages P rangeOrder capture repo strat opts c st with
        h | ⟨ref, cur, hs, h⟩
      · rw [h]; exact hprev
      · rw [h]; exact hsnap ref cur hs
    cases hstep : commitStep P rangeOrder capture repo strat opts c st with
    | mk st1 err =>
      rw [hstep] at hw1 hprev1
      cases err with
      | some e => simpa [commitLoop, hstep] using hw1
      | none =>
        simp only [commitLoop, hstep]
        exact ih st1 hprev1 hw1

/-- C8: for every strategy, `GetPackages` with dev-capture enabled returns the parser's
result unchanged; with dev-capture disabled it returns, nil for nil, exactly the parser's
entries whose IsDev is false, and the parser's error when the parser fails; and no event
`Run` writes with dev-capture disabled, of any kind and for any registered strategies and
captured kinds, carries a package with IsDev true. -/
theorem dev_filtering {σ : Type} (s : Strategy) (r : Reader) (w : World σ) (opts : RunOptions) :
    s.GetPackages r true = s.getPackages r ∧
    (∀ m, s.getPackages r = .ok m →
      ∃ m', s.GetPackages r false = .ok m' ∧ m'.isSome = m.isSome ∧
        ∀ n, m'.get n = (m.get n).filter (fun p => !p.IsDev)) ∧
    (∀ err, s.getPackages r = .error err → s.GetPackages r false = .error err) ∧
    (opts.CaptureDevPackages = false → ∀ e ∈ (Run w opts).written, e.Package.IsDev = false) := by
  refine ⟨GetPackages_dev s r, GetPackages_nodev s r,
    fun err h => GetPackages_nodev_error s r false err h, ?_⟩
  intro hdev e he
  rcases Run_written_cases w opts with hnil | ⟨strat, repo, output, out0, _, _, _, hrun⟩
  · rw [hnil] at he; cases he
  · rw [hrun] at he
    exact commitLoop_nodev output w.rangeOrder (getCaptureOpts opts.CaptureEvents) repo strat
      opts hdev (w.getLastCommits opts).1 _
      (fun n p hp => by simp [GoMap.get] at hp) (fun e he => by cases he) e he

/-! ## Whole runs over the sample history -/

theorem dev_filtering_witness :
    optionsNoDev.CaptureDevPackages = false ∧
    ∀ e ∈ (Run sampleWorld optionsNoDev).written, e.Package.IsDev = false :=
  ⟨rfl, (dev_filtering (newComposerStrategy sampleDecoders) "c1" sampleWorld optionsNoDev).2.2.2
    rfl⟩

/-- C6, at the failing input: over the sample history with the JSON presenter on a full
device, every `Write` succeeds, the deferred `Close` returns the encoding error, and `Run`
returns nil. -/
theorem Run_returns_nil_when_Close_fails :
    (Run fullDeviceWorld optionsNoDev).err = none ∧
    (Run fullDeviceWorld optionsNoDev).written.length = 1 ∧
    ∃ out, (Run fullDeviceWorld optionsNoDev).closed =
      some (out, some (.wrapped "json encode" (.sentinel "no space left on device"))) :=
  ⟨by decide, by decide, ⟨_, rfl⟩⟩

/-- Scenario D on the sample history: the content at `c2` does not parse, and `c3` is
diffed against the snapshot of `c1`. -/
theorem Run_sample_history :
    (Run sampleWorld optionsNoDev).written =
      [updatedEvent ⟨"a", "2.0", false⟩ ⟨"a", "1.0", false⟩ (sampleCommitWith "c3") "c3"] := by
  decide

end Packetus
